import Mathlib

/-!
# Configuration drift check (`server/config_check.go`)

A shallow embedding of `compareConfigs` and `CheckAndUpdateFile`, with the
properties of the structural diff and of the reconciliation driver.

A decoded TOML document is a Go `map[string]interface{}`.  It is embedded as an
association list; the order of the list is the order in which `range` visits the
map, and a list with pairwise distinct keys at every level (`Server.wfTree`) is
exactly a Go map.  A run-time panic is the result `none`.
-/

namespace Server

/-! ## Data model -/

/-- The dynamic values `toml.Unmarshal` stores in an `interface{}`: strings,
`int64`, `float64` (kept as its IEEE-754 bit pattern), booleans, date/time values
(kept by their canonical text), `[]interface{}` and `map[string]interface{}`. -/
inductive Value where
  | str (s : String)
  | int (i : Int)
  | float (bits : Nat)
  | bool (b : Bool)
  | time (repr : String)
  | list (xs : List Value)
  | table (kvs : List (String × Value))

/-- A `map[string]interface{}`, entries in iteration order. -/
abbrev Table := List (String × Value)

/-- The three results of `compareConfigs`. -/
structure Diff where
  added : List String
  removed : List String
  modified : List String
deriving DecidableEq, Repr

/-- Whether a value holds a `map[string]interface{}`. -/
def Value.isTable : Value → Bool
  | .table _ => true
  | _ => false

/-! ## `reflect.DeepEqual` on decoded values -/

/-- A `float64` bit pattern is a NaN: exponent all ones, mantissa not zero. -/
def f64IsNaN (bits : Nat) : Bool :=
  (bits / 2 ^ 52) % 2 ^ 11 == 2047 && bits % 2 ^ 52 != 0

/-- Go `==` on `float64`: a NaN equals nothing, the two zeros are equal,
every other value equals itself only. -/
def f64Eq (a b : Nat) : Bool :=
  !f64IsNaN a && !f64IsNaN b &&
    (a % 2 ^ 64 == b % 2 ^ 64 || (a % 2 ^ 63 == 0 && b % 2 ^ 63 == 0))

mutual
/-- The function `reflect.DeepEqual` on two interface values: different dynamic
types are unequal, scalars use Go `==`, slices are compared element by element,
maps have the same length and every key of the first maps to a deeply equal
value in the second. -/
def deepEqual : Value → Value → Bool
  | .str a, .str b => a == b
  | .int a, .int b => a == b
  | .float a, .float b => f64Eq a b
  | .bool a, .bool b => a == b
  | .time a, .time b => a == b
  | .list xs, .list ys => deepEqualList xs ys
  | .table e, .table c => e.length == c.length && deepEqualMap e c
  | _, _ => false
/-- Slice case of `reflect.DeepEqual`. -/
def deepEqualList : List Value → List Value → Bool
  | [], [] => true
  | x :: xs, y :: ys => deepEqual x y && deepEqualList xs ys
  | _, _ => false
/-- Map case of `reflect.DeepEqual`: the loop over the keys of the first map,
each looked up in the second.  Keys of a map being distinct, the value of a key
in the first map is the value of its entry. -/
def deepEqualMap : List (String × Value) → List (String × Value) → Bool
  | [], _ => true
  | (k, v) :: rest, c =>
    (match c.lookup k with
     | some v2 => deepEqual v v2
     | none => false) && deepEqualMap rest c
end

/-! ## `sort.Strings` -/

/-- Go `<=` on strings.  Go compares the UTF-8 bytes, which orders valid strings
as their code points do. -/
def strLe (a b : String) : Bool := !(decide (b.data < a.data))

/-- The function `sort.Strings`: the ascending rearrangement of the slice. -/
def sortStrings (l : List String) : List String :=
  l.insertionSort (fun a b => strLe a b = true)

/-! ## `compareConfigs` -/

/-- The expression `key+"."+subKey` applied to every sub-key (lines 119-127). -/
def qualify (key : String) (subs : List String) : List String :=
  subs.map (fun subKey => key ++ "." ++ subKey)

/-- Second loop of `compareConfigs` (lines 134-138): every key of `existing`
that `new` lacks is appended to `removed`. -/
def removedLoop (new : Table) : Table → List String → List String
  | [], removed => removed
  | (key, _) :: rest, removed =>
    match new.lookup key with
    | none => removedLoop new rest (removed ++ [key])
    | some _ => removedLoop new rest removed

/-- Lines 134-144 of `compareConfigs`: the second loop and the three sorts,
applied to the accumulators the first loop leaves. -/
def finish (existing new : Table) (d : Diff) : Diff :=
  { added := sortStrings d.added
    removed := sortStrings (removedLoop new existing d.removed)
    modified := sortStrings d.modified }

mutual
/-- Body of the first loop of `compareConfigs` (lines 113-131) for one entry
`key, newValue` of `new`, updating the three accumulators.  The recursive call
of line 118 is the first loop on the two nested tables followed by `finish`.
The unchecked assertion `newValue.(map[string]interface{})` panics when
`newValue` is not a table. -/
def compareEntry (existing : Table) (key : String) : Value → Diff → Option Diff
  | newValue, acc =>
    match existing.lookup key with
    | none => some { acc with added := acc.added ++ [key] }
    | some existingValue =>
      if !deepEqual existingValue newValue then
        match existingValue with
        | .table ex =>
          match newValue with
          | .table nw =>
            match compareLoop ex nw ⟨[], [], []⟩ with
            | none => none
            | some sub =>
              some
                { added := acc.added ++ qualify key (finish ex nw sub).added
                  removed := acc.removed ++ qualify key (finish ex nw sub).removed
                  modified := acc.modified ++ qualify key (finish ex nw sub).modified }
          | _ => none
        | _ => some { acc with modified := acc.modified ++ [key] }
      else some acc
/-- First loop of `compareConfigs` (lines 112-132) over the entries of `new`,
threading the three accumulators; a panic in the body ends the run. -/
def compareLoop (existing : Table) : Table → Diff → Option Diff
  | [], acc => some acc
  | (key, newValue) :: rest, acc =>
    match compareEntry existing key newValue acc with
    | none => none
    | some acc2 => compareLoop existing rest acc2
end

/-- The function `compareConfigs(existing, new)`; `none` is a panic. -/
def compareConfigs (existing new : Table) : Option Diff :=
  (compareLoop existing new ⟨[], [], []⟩).map (finish existing new)

/-- The accumulators after a nested comparison reported `sub` under `key`. -/
def Diff.merge (acc : Diff) (key : String) (sub : Diff) : Diff :=
  { added := acc.added ++ qualify key sub.added
    removed := acc.removed ++ qualify key sub.removed
    modified := acc.modified ++ qualify key sub.modified }

/-! ## Key paths -/

/-- Cut a character sequence at every `'.'`. -/
def splitChars : List Char → List (List Char)
  | [] => [[]]
  | c :: cs =>
    if c = '.' then [] :: splitChars cs
    else
      match splitChars cs with
      | [] => [[c]]
      | s :: ss => (c :: s) :: ss

/-- A reported key path read as a dotted path: its segments between dots. -/
def splitPath (p : String) : List String :=
  (splitChars p.data).map String.mk

/-- The value a sequence of keys leads to: each key but the last must lead to a
nested table. -/
def resolve : Table → List String → Option Value
  | _, [] => none
  | t, k :: rest =>
    match t.lookup k, rest with
    | some v, [] => some v
    | some (.table sub), _ :: _ => resolve sub rest
    | _, _ => none

/-- The value at a reported key path. -/
def valueAt (t : Table) (p : String) : Option Value :=
  resolve t (splitPath p)

/-! ## Well-formedness of trees -/

mutual
/-- Every table inside a value, the value included, satisfies `p`. -/
def Value.allTables (p : Table → Bool) : Value → Bool
  | .list xs => allTablesList p xs
  | .table kvs => p kvs && allTablesEntries p kvs
  | _ => true
/-- Every table inside the elements of a slice satisfies `p`. -/
def allTablesList (p : Table → Bool) : List Value → Bool
  | [] => true
  | x :: xs => x.allTables p && allTablesList p xs
/-- Every table inside the values of a map satisfies `p`. -/
def allTablesEntries (p : Table → Bool) : List (String × Value) → Bool
  | [] => true
  | (_, v) :: rest => v.allTables p && allTablesEntries p rest
end

/-- The keys of a table are pairwise distinct. -/
def distinctKeys (t : Table) : Bool := decide (t.map Prod.fst).Nodup

/-- No key of the table contains the character `'.'`. -/
def dotFreeKeys (t : Table) : Bool := t.all (fun e => !e.1.data.contains '.')

/-- A tree is a Go map at every level: keys are pairwise distinct. -/
def wfTree (t : Table) : Bool := (Value.table t).allTables distinctKeys

/-- No key at any nesting level contains `'.'`. -/
def dotFree (t : Table) : Bool := (Value.table t).allTables dotFreeKeys

mutual
/-- No `float64` inside the value is a NaN. -/
def Value.nanFree : Value → Bool
  | .float bits => !f64IsNaN bits
  | .list xs => nanFreeList xs
  | .table kvs => nanFreeEntries kvs
  | _ => true
/-- No element of the slice holds a NaN. -/
def nanFreeList : List Value → Bool
  | [] => true
  | x :: xs => x.nanFree && nanFreeList xs
/-- No value of the map holds a NaN. -/
def nanFreeEntries : List (String × Value) → Bool
  | [] => true
  | (_, v) :: rest => v.nanFree && nanFreeEntries rest
end

/-! ## `CheckAndUpdateFile` -/

/-- The two functions of the TOML library the driver calls: `toml.Unmarshal`
into a `map[string]interface{}` and `toml.Marshal` of the default object.  A
failure carries the text of the library error. -/
structure Toml (α : Type) where
  unmarshal : String → Except String Table
  marshal : α → Except String String

/-- The part of the process environment the driver touches. -/
structure World where
  /-- What `os.ReadFile` returns for a path: the content or the error text. -/
  files : String → Except String String
  /-- For a path, `none` when `os.WriteFile` succeeds there; otherwise the error
  text and what the path reads as after the failed write. -/
  writeFault : String → Option (String × Except String String)
  /-- The characters waiting on standard input. -/
  stdin : List Char
  /-- Everything printed on standard output, one element for each print. -/
  stdout : List String

/-- What a call returns and the environment it leaves; `err = none` is Go `nil`. -/
structure Outcome where
  err : Option String
  world : World

/-- The call `filepath.Join(configPath, fileName)` on clean path elements. -/
def joinPath (configPath fileName : String) : String :=
  configPath ++ "/" ++ fileName

/-- The function `isSpace` of package `fmt`: the runes a scan treats as blanks. -/
def isSpace (r : Char) : Bool :=
  (0x09 ≤ r.toNat && r.toNat ≤ 0x0d) || r.toNat == 0x20 || r.toNat == 0x85 ||
    r.toNat == 0xa0 || r.toNat == 0x1680 || (0x2000 ≤ r.toNat && r.toNat ≤ 0x200a) ||
    (0x2028 ≤ r.toNat && r.toNat ≤ 0x2029) || r.toNat == 0x202f || r.toNat == 0x205f ||
    r.toNat == 0x3000

/-- What a call `fmt.Scanln(&response)` leaves, `response` being empty before
it: the string in `response`, the error it returns (line 94 drops it) and the
characters still unread. -/
structure Scan where
  response : String
  err : Option String
  rest : List Char
deriving DecidableEq, Repr

/-- The method `SkipSpace` of a `Scanln` scan: blanks are read up to the first
character of a word; a newline met on the way is read and is an error.  The
result is the characters unread and whether a newline was met. -/
def skipSpace : List Char → List Char × Bool
  | [] => ([], false)
  | r :: rs =>
    if r = '\n' then (rs, true)
    else if isSpace r then skipSpace rs
    else (r :: rs, false)

/-- The end of a `Scanln` scan: blanks are read up to the newline or the end of
input; a character that is not a blank is read and is an error.  The result is
the characters unread and whether such a character was met. -/
def expectNewline : List Char → List Char × Bool
  | [] => ([], false)
  | r :: rs =>
    if r = '\n' then (rs, false)
    else if isSpace r then expectNewline rs
    else (rs, true)

/-- The call `fmt.Scanln(&response)` on the characters waiting on standard
input: leading blanks are skipped, the word up to the next blank is stored, and
what follows the word on the line must be blank.  An empty line or the end of
input stores nothing; a second word is an error reported after the first word
is stored. -/
def scanlnString (input : List Char) : Scan :=
  match skipSpace input with
  | (rest, true) => ⟨"", some "unexpected newline", rest⟩
  | ([], false) => ⟨"", some "EOF", []⟩
  | (r :: rs, false) =>
    match expectNewline ((r :: rs).dropWhile (fun c => !isSpace c)) with
    | (rest, true) =>
      ⟨String.mk ((r :: rs).takeWhile (fun c => !isSpace c)), some "expected newline", rest⟩
    | (rest, false) =>
      ⟨String.mk ((r :: rs).takeWhile (fun c => !isSpace c)), none, rest⟩

/-- Line 94, `fmt.Scanln(&response)` with its error dropped: the string left in
`response` and the environment with the characters read taken off standard
input. -/
def scanln (w : World) : String × World :=
  ((scanlnString w.stdin).response, { w with stdin := (scanlnString w.stdin).rest })

/-- The call `os.WriteFile(path, data, 0644)`. -/
def writeFile (w : World) (path data : String) : Option String × World :=
  match w.writeFault path with
  | none => (none, { w with files := fun p => if p = path then .ok data else w.files p })
  | some (msg, left) =>
    (some msg, { w with files := fun p => if p = path then left else w.files p })

/-- One group of the report (lines 69-86): a header and one line for each key,
nothing when the group is empty. -/
def reportGroup (header mark : String) (keys : List String) : List String :=
  if keys.length > 0 then
    (header ++ "\n") :: keys.map (fun key => "  " ++ mark ++ " " ++ key ++ "\n")
  else []

/-- The report of lines 68-86. -/
def report (fileName : String) (d : Diff) : List String :=
  ["Your " ++ fileName ++ " file structure is outdated.\n"]
    ++ reportGroup "Added parameters:" "+" d.added
    ++ reportGroup "Removed parameters:" "-" d.removed
    ++ reportGroup "Modified parameters:" "*" d.modified

/-- Lines 88-96: the decision to update, and the environment after the prompt. -/
def shouldUpdate (fileName : String) (autoUpdate : Bool) (w : World) : Bool × World :=
  if autoUpdate then (true, w)
  else
    let w1 := { w with stdout := w.stdout ++
      ["Do you want to update " ++ fileName ++ " with the new structure? (y/n): "] }
    let (response, w2) := scanln w1
    (response == "y" || response == "Y", w2)

/-- The function `CheckAndUpdateFile`; `none` is a panic of `compareConfigs`. -/
def CheckAndUpdateFile {α : Type} (toml : Toml α) (configPath fileName : String)
    (defaultConfig : α) (autoUpdate : Bool) (w : World) : Option Outcome :=
  let filePath := joinPath configPath fileName
  match w.files filePath with
  | .error err => some ⟨some ("error reading " ++ fileName ++ ": " ++ err), w⟩
  | .ok existingContent =>
    match toml.unmarshal existingContent with
    | .error err => some ⟨some ("error parsing existing " ++ fileName ++ ": " ++ err), w⟩
    | .ok existingMap =>
      match toml.marshal defaultConfig with
      | .error err =>
        some ⟨some ("error generating new " ++ fileName ++ " content: " ++ err), w⟩
      | .ok newContent =>
        match toml.unmarshal newContent with
        | .error err => some ⟨some ("error parsing new " ++ fileName ++ ": " ++ err), w⟩
        | .ok newMap =>
          match compareConfigs existingMap newMap with
          | none => none
          | some d =>
            if d.added.length > 0 ∨ d.removed.length > 0 ∨ d.modified.length > 0 then
              let w1 := { w with stdout := w.stdout ++ report fileName d }
              let (decision, w2) := shouldUpdate fileName autoUpdate w1
              if decision then
                match writeFile w2 filePath newContent with
                | (some err, w3) =>
                  some ⟨some ("error writing updated " ++ fileName ++ ": " ++ err), w3⟩
                | (none, w3) =>
                  some ⟨none, { w3 with stdout := w3.stdout ++
                    [fileName ++ " has been updated with the new structure.\n"] }⟩
              else
                some ⟨none, { w2 with stdout := w2.stdout ++
                  [fileName ++
                    " was not updated. Please manually update your file structure.\n"] }⟩
            else some ⟨none, w⟩

/-! ## The documents of `TestCheckConfigFiles` -/

/-- The codec restricted to the documents of the first two tests: the file and
the default object of "No changes", and those of "Added parameter". -/
def testToml : Toml Table where
  unmarshal := fun b =>
    if b = "param1 = \"value1\"\nparam2 = 42\n" then
      .ok [("param1", .str "value1"), ("param2", .int 42)]
    else if b = "param1 = 'different_value'\nparam2 = 100\n" then
      .ok [("param1", .str "different_value"), ("param2", .int 100)]
    else if b = "param1 = \"value1\"\n" then
      .ok [("param1", .str "value1")]
    else if b = "param1 = 'value1'\nparam2 = 'new_value'\n" then
      .ok [("param1", .str "value1"), ("param2", .str "new_value")]
    else .error "toml: unsupported document"
  marshal := fun t =>
    match t with
    | [("param1", .str "different_value"), ("param2", .int 100)] =>
      .ok "param1 = 'different_value'\nparam2 = 100\n"
    | [("param1", .str "value1"), ("param2", .str "new_value")] =>
      .ok "param1 = 'value1'\nparam2 = 'new_value'\n"
    | _ => .error "toml: unsupported value"

/-- A directory holding `config/test.toml` with the given content, every write
succeeding, and the given lines, each ended by a newline, waiting on standard
input. -/
def testWorld (content : String) (stdin : List String) : World where
  files := fun p => if p = "config/test.toml" then .ok content
    else .error "no such file or directory"
  writeFault := fun _ => none
  stdin := stdin.foldr (fun line acc => line.data ++ '\n' :: acc) []
  stdout := []

/-- The same directory with `config/test.toml` readable but not writable. -/
def readOnlyWorld (content : String) : World :=
  { testWorld content [] with
    writeFault := fun _ => some ("permission denied", .ok content) }

/-- A codec that knows two documents holding one `float64`: `rate = 0.5` and
`rate = nan`; the default object is the bit pattern of `rate`. -/
def rateToml : Toml Nat where
  unmarshal := fun b =>
    if b = "rate = 0.5\n" then .ok [("rate", .float 0x3fe0000000000000)]
    else if b = "rate = nan\n" then .ok [("rate", .float 0x7ff8000000000000)]
    else .error "toml: unsupported document"
  marshal := fun bits =>
    if bits = 0x3fe0000000000000 then .ok "rate = 0.5\n"
    else if bits = 0x7ff8000000000000 then .ok "rate = nan\n"
    else .error "toml: unsupported value"

/-! ## Bookkeeping on the three sequences -/

/-- The names of the three result sequences. -/
inductive Part where
  | added
  | removed
  | modified
deriving DecidableEq, Repr

/-- The result sequence of a given name. -/
def Diff.part (d : Diff) : Part → List String
  | .added => d.added
  | .removed => d.removed
  | .modified => d.modified

/-- Sequence by sequence concatenation. -/
def Diff.append (d1 d2 : Diff) : Diff :=
  { added := d1.added ++ d2.added
    removed := d1.removed ++ d2.removed
    modified := d1.modified ++ d2.modified }

/-- The result with `added` and `removed` exchanged. -/
def Diff.swap (d : Diff) : Diff :=
  { added := d.removed, removed := d.added, modified := d.modified }

/-- The name of a sequence after `added` and `removed` are exchanged. -/
def Part.swap : Part → Part
  | .added => .removed
  | .removed => .added
  | .modified => .modified

/-- The first loop of `compareConfigs` without accumulators: what the entries
of `new` contribute, in order; `none` when an iteration panics. -/
def collect (existing : Table) : Table → Option Diff
  | [] => some ⟨[], [], []⟩
  | (key, newValue) :: rest =>
    (compareEntry existing key newValue ⟨[], [], []⟩).bind
      (fun d => (collect existing rest).map (fun r => d.append r))

/-- What the two loops of `compareConfigs` report on account of one key: the
iteration of the first loop when `new` has the key, the iteration of the second
loop when only `existing` has it. -/
def keyDiff (existing new : Table) (k : String) : Option Diff :=
  match new.lookup k with
  | some newValue => compareEntry existing k newValue ⟨[], [], []⟩
  | none =>
    match existing.lookup k with
    | some _ => some ⟨[], [k], []⟩
    | none => some ⟨[], [], []⟩

/-- The keys of either table. -/
def keySet (a b : Table) : Finset String :=
  (a.map Prod.fst).toFinset ∪ (b.map Prod.fst).toFinset

/-- What the first loop reports on account of a key: the contribution of its
iteration, nothing when `new` lacks the key. -/
def newPart (existing new : Table) (k : String) : Diff :=
  match new.lookup k with
  | some newValue => (compareEntry existing k newValue ⟨[], [], []⟩).getD ⟨[], [], []⟩
  | none => ⟨[], [], []⟩

/-- What the second loop reports on account of a key: the key when `existing`
has it and `new` lacks it. -/
def oldPart (existing new : Table) (k : String) : List String :=
  if (existing.lookup k).isSome && (new.lookup k).isNone then [k] else []

mutual
/-- Two values bound to the same key are of the same kind, both tables or
neither, and so are the values of every key the two tables share, at every
depth. -/
def kindsAgreeValue : Value → Value → Bool
  | .table ta, w =>
    match w with
    | .table tb => kindsAgreeEntries ta tb
    | _ => false
  | _, w => !w.isTable
/-- The values of every key of the first table that the second table has too
are of the same kind, at every depth. -/
def kindsAgreeEntries : List (String × Value) → Table → Bool
  | [], _ => true
  | (k, v) :: rest, b =>
    (match b.lookup k with
     | some w => kindsAgreeValue v w
     | none => true) && kindsAgreeEntries rest b
end

/-- No key path present in both trees holds a nested table on one side and a
value that is not a table on the other. -/
def kindsAgree (a b : Table) : Bool := kindsAgreeEntries a b

mutual
/-- Two values are the same Go value, whatever the order in which their maps,
at any depth, store their entries: scalars are identical, slices are the same
element by element, maps have the same number of keys and every key of the
first is bound in the second to the same value. -/
def sameValue : Value → Value → Bool
  | .str a, .str b => a == b
  | .int a, .int b => a == b
  | .float a, .float b => a == b
  | .bool a, .bool b => a == b
  | .time a, .time b => a == b
  | .list xs, .list ys => sameList xs ys
  | .table e, .table c => e.length == c.length && sameMap e c
  | _, _ => false
/-- Slice case of `sameValue`. -/
def sameList : List Value → List Value → Bool
  | [], [] => true
  | x :: xs, y :: ys => sameValue x y && sameList xs ys
  | _, _ => false
/-- Map case of `sameValue`: every entry of the first map is found in the
second. -/
def sameMap : List (String × Value) → List (String × Value) → Bool
  | [], _ => true
  | (k, v) :: rest, c =>
    (match c.lookup k with
     | some v2 => sameValue v v2
     | none => false) && sameMap rest c
end

/-- Two trees are the same map stored in two iteration orders. -/
def sameTree (a b : Table) : Bool := sameValue (.table a) (.table b)

/-- The first segment of a reported path. -/
def pathHead (p : String) : Option String := (splitPath p).head?

end Server

/-! # Node status query (`client/grpc/node/service.go`) -/

namespace Node

/-- The two methods of `client.CometRPC` met here. -/
structure CometRPC where
  /-- The call `Status(ctx)`: `SyncInfo.EarliestBlockHeight`, or the error text. -/
  status : Except String Int
  /-- The call `Block(ctx, &height)`: `some none` when a block comes back,
  `some (some msg)` when the error `msg` comes back, `none` when the call
  panics. -/
  block : Int → Option (Option String)

/-- The part of `client.Context` that `Status` reads: the field `Client`
(`none` is `nil`) and what the method `GetNode()` returns. -/
structure Context where
  Client : Option CometRPC
  GetNode : Except String CometRPC

/-- The part of `sdk.Context` that `Status` reads. -/
structure SdkContext where
  BlockHeight : Int
  BlockTime : Nat
  AppHash : List Nat
  NextValidatorsHash : List Nat

/-- The message `StatusResponse`. -/
structure StatusResponse where
  EarliestStoreHeight : Nat
  Height : Nat
  Timestamp : Nat
  AppHash : List Nat
  ValidatorHash : List Nat
deriving DecidableEq, Repr

/-- The type `queryServer`; the field `cfg` plays no part in `Status`. -/
structure queryServer where
  clientCtx : Context

/-- The first submatch of the pattern `lowest height is (\d+)`: the digits that
follow the leftmost occurrence of the words that is followed by a digit. -/
def findLowest : List Char → Option (List Char)
  | [] => none
  | c :: cs =>
    if "lowest height is ".data.isPrefixOf (c :: cs)
        ∧ (((c :: cs).drop 17).takeWhile Char.isDigit) ≠ [] then
      some (((c :: cs).drop 17).takeWhile Char.isDigit)
    else findLowest cs

/-- The call `strconv.ParseUint(digits, 10, 64)` on a run of decimal digits:
the number, or `none` when it does not fit 64 bits. -/
def parseUint (digits : List Char) : Option Nat :=
  let n := digits.foldl (fun acc c => 10 * acc + (c.toNat - 48)) 0
  if n < 2 ^ 64 then some n else none

/-- Lines 67-75: the height taken from the text of the error of `Block`, zero
when the text has no such height. -/
def earliestFromError (msg : String) : Nat :=
  match findLowest msg.data with
  | none => 0
  | some digits =>
    match parseUint digits with
    | some parsed => parsed
    | none => 0

/-- Lines 57-78 of `Status`: the variable `earliestHeight`; `none` is a panic. -/
def earliestHeight (s : queryServer) : Option Nat :=
  match s.clientCtx.Client with
  | none => some 0
  | some _ =>
    match s.clientCtx.GetNode with
    | .error _ => some 0
    | .ok node =>
      match node.block 1 with
      | none => none
      | some none => some 1
      | some (some msg) => some (earliestFromError msg)

/-- The method `queryServer.Status`; it returns no error, `none` is a panic.
The conversion `uint64(sdkCtx.BlockHeight())` wraps modulo `2 ^ 64`. -/
def Status (s : queryServer) (ctx : SdkContext) : Option StatusResponse :=
  (earliestHeight s).map fun earliest =>
    { EarliestStoreHeight := earliest
      Height := (ctx.BlockHeight % 2 ^ 64).toNat
      Timestamp := ctx.BlockTime
      AppHash := ctx.AppHash
      ValidatorHash := ctx.NextValidatorsHash }

/-- The test double `mockCometRPC`: it defines `Status` only.  Every other
method, `Block` among them, is the method of the embedded interface, which is
`nil`, and calling it panics. -/
def mockCometRPC (earliestBlockHeight : Int) : CometRPC where
  status := .ok earliestBlockHeight
  block := fun _ => none

/-- The server of `TestServiceServer_Status` for a client: `client.Context`
with the field `Client` set, for which `GetNode()` returns that client. -/
def serverWith (node : CometRPC) : queryServer :=
  ⟨⟨some node, .ok node⟩⟩

/-- The server of the case "without comet client". -/
def serverOffline : queryServer :=
  ⟨⟨none, .error "no RPC client is defined in offline mode"⟩⟩

/-- The context of `TestServiceServer_Status`: block height 100. -/
def testContext : SdkContext :=
  { BlockHeight := 100, BlockTime := 0, AppHash := [], NextValidatorsHash := [] }

/-- A node that has pruned its blocks below height 50. -/
def prunedNode : CometRPC where
  status := .ok 50
  block := fun height =>
    if height < 50 then some (some "height 1 is not available, lowest height is 50")
    else some none

end Node

namespace Server

/-! ## Properties of `sort.Strings` -/

theorem strLe_iff (a b : String) : strLe a b = true ↔ a ≤ b := by
  unfold strLe
  simp [String.le_iff_toList_le]

instance strLe_total : IsTotal String (fun a b => strLe a b = true) :=
  ⟨fun a b => by simpa [strLe_iff] using le_total a b⟩

instance strLe_trans : IsTrans String (fun a b => strLe a b = true) :=
  ⟨fun a b c => by simpa [strLe_iff] using @le_trans String _ a b c⟩

theorem sortStrings_sorted (l : List String) : (sortStrings l).Sorted (· ≤ ·) := by
  have h := List.sorted_insertionSort (fun a b => strLe a b = true) l
  exact List.Pairwise.imp (fun {a b} hab => (strLe_iff a b).1 hab) h

theorem sortStrings_perm (l : List String) : (sortStrings l).Perm l :=
  List.perm_insertionSort _ l

theorem mem_sortStrings {p : String} {l : List String} : p ∈ sortStrings l ↔ p ∈ l :=
  (sortStrings_perm l).mem_iff

theorem sortStrings_of_sorted {l : List String} (h : l.Sorted (· ≤ ·)) : sortStrings l = l := by
  apply List.Sorted.insertionSort_eq
  exact List.Pairwise.imp (fun {a b} hab => (strLe_iff a b).2 hab) h

@[simp] theorem sortStrings_nil : sortStrings [] = [] := rfl

theorem sortStrings_eq_nil {l : List String} : sortStrings l = [] ↔ l = [] := by
  constructor
  · intro h
    have := (sortStrings_perm l).length_eq
    rw [h] at this
    exact List.length_eq_zero.1 this.symm
  · rintro rfl; rfl

theorem append_le_append_left (l : List Char) {a b : List Char} (h : a ≤ b) :
    l ++ a ≤ l ++ b := by
  induction l with
  | nil => simpa using h
  | cons c l ih => exact List.cons_le_cons c ih

theorem qualified_le (key : String) {a b : String} (h : a ≤ b) :
    key ++ "." ++ a ≤ key ++ "." ++ b := by
  rw [String.le_iff_toList_le] at h ⊢
  simp only [String.toList, String.data_append] at h ⊢
  exact append_le_append_left _ h

theorem qualify_sorted (key : String) {l : List String} (h : l.Sorted (· ≤ ·)) :
    (qualify key l).Sorted (· ≤ ·) := by
  unfold qualify
  exact List.Pairwise.map _ (fun a b hab => qualified_le key hab) h

theorem mem_qualify {key p : String} {l : List String} :
    p ∈ qualify key l ↔ ∃ q ∈ l, p = key ++ "." ++ q := by
  unfold qualify
  simp only [List.mem_map]
  constructor
  · rintro ⟨q, hq, rfl⟩; exact ⟨q, hq, rfl⟩
  · rintro ⟨q, hq, rfl⟩; exact ⟨q, hq, rfl⟩

theorem key_not_mem_qualify (key : String) (l : List String) : key ∉ qualify key l := by
  intro h
  obtain ⟨q, _, hq⟩ := mem_qualify.1 h
  have := congrArg String.length hq
  simp only [String.length_append] at this
  have h1 : ".".length = 1 := rfl
  omega

/-! ## One iteration of the first loop -/

theorem compareEntry_absent {existing : Table} {key : String} (nv : Value) (acc : Diff)
    (h : existing.lookup key = none) :
    compareEntry existing key nv acc = some ⟨acc.added ++ [key], acc.removed, acc.modified⟩ := by
  cases nv <;> simp [compareEntry, h]

theorem compareEntry_equal {existing : Table} {key : String} {ev nv : Value} (acc : Diff)
    (h : existing.lookup key = some ev) (he : deepEqual ev nv = true) :
    compareEntry existing key nv acc = some acc := by
  cases nv <;> simp [compareEntry, h, he]

theorem compareEntry_scalar {existing : Table} {key : String} {ev nv : Value} (acc : Diff)
    (h : existing.lookup key = some ev) (he : deepEqual ev nv = false)
    (ht : ev.isTable = false) :
    compareEntry existing key nv acc = some ⟨acc.added, acc.removed, acc.modified ++ [key]⟩ := by
  cases ev <;> cases nv <;> simp_all [compareEntry, Value.isTable]

theorem compareEntry_tables {existing : Table} {key : String} {ex nw : Table} (acc : Diff)
    (h : existing.lookup key = some (.table ex))
    (he : deepEqual (.table ex) (.table nw) = false) :
    compareEntry existing key (.table nw) acc
      = (compareConfigs ex nw).map (acc.merge key) := by
  simp only [compareEntry, h, he, compareConfigs]
  cases compareLoop ex nw ⟨[], [], []⟩ <;> simp [Diff.merge]

theorem deepEqual_table_left {ex : Table} {nv : Value} (ht : nv.isTable = false) :
    deepEqual (.table ex) nv = false := by
  cases nv <;> simp_all [deepEqual, Value.isTable]

theorem compareEntry_panics {existing : Table} {key : String} {ex : Table} {nv : Value}
    (acc : Diff) (h : existing.lookup key = some (.table ex)) (ht : nv.isTable = false) :
    compareEntry existing key nv acc = none := by
  cases nv <;> simp_all [compareEntry, Value.isTable, deepEqual]

theorem compareEntry_cases {existing : Table} {key : String} {nv : Value} {acc r : Diff}
    (h : compareEntry existing key nv acc = some r) :
    (existing.lookup key = none ∧ r = ⟨acc.added ++ [key], acc.removed, acc.modified⟩) ∨
    (∃ ev, existing.lookup key = some ev ∧ deepEqual ev nv = true ∧ r = acc) ∨
    (∃ ev, existing.lookup key = some ev ∧ deepEqual ev nv = false ∧ ev.isTable = false ∧
      r = ⟨acc.added, acc.removed, acc.modified ++ [key]⟩) ∨
    (∃ ex nw sub, existing.lookup key = some (.table ex) ∧ nv = .table nw ∧
      deepEqual (.table ex) (.table nw) = false ∧ compareConfigs ex nw = some sub ∧
      r = acc.merge key sub) := by
  cases hl : existing.lookup key with
  | none =>
    rw [compareEntry_absent nv acc hl] at h
    exact Or.inl ⟨rfl, (Option.some.inj h).symm⟩
  | some ev =>
    cases he : deepEqual ev nv with
    | true =>
      rw [compareEntry_equal acc hl he] at h
      exact Or.inr (Or.inl ⟨ev, rfl, he, (Option.some.inj h).symm⟩)
    | false =>
      cases ht : ev.isTable with
      | false =>
        rw [compareEntry_scalar acc hl he ht] at h
        exact Or.inr (Or.inr (Or.inl ⟨ev, rfl, he, ht, (Option.some.inj h).symm⟩))
      | true =>
        obtain ⟨ex, rfl⟩ : ∃ ex, ev = .table ex := by
          cases ev <;> simp_all [Value.isTable]
        cases hn : nv.isTable with
        | false => rw [compareEntry_panics acc hl hn] at h; cases h
        | true =>
          obtain ⟨nw, rfl⟩ : ∃ nw, nv = .table nw := by
            cases nv <;> simp_all [Value.isTable]
          rw [compareEntry_tables acc hl he] at h
          cases hc : compareConfigs ex nw with
          | none => rw [hc] at h; cases h
          | some sub =>
            rw [hc] at h
            exact Or.inr (Or.inr (Or.inr ⟨ex, nw, sub, rfl, rfl, he, hc,
              (Option.some.inj h).symm⟩))

/-! ## The two loops -/

theorem compareLoop_cons (existing : Table) (key : String) (nv : Value) (rest : Table)
    (acc : Diff) :
    compareLoop existing ((key, nv) :: rest) acc
      = (compareEntry existing key nv acc).bind (compareLoop existing rest) := by
  rw [compareLoop]
  cases compareEntry existing key nv acc <;> rfl

theorem mem_removedLoop {new : Table} {p : String} :
    ∀ {l : Table} {acc : List String},
      p ∈ removedLoop new l acc ↔ p ∈ acc ∨ (p ∈ l.map Prod.fst ∧ new.lookup p = none)
  | [], acc => by simp [removedLoop]
  | (key, v) :: rest, acc => by
    rw [removedLoop]
    cases hl : new.lookup key with
    | none =>
      simp only [mem_removedLoop (l := rest), List.mem_append, List.mem_cons,
        List.not_mem_nil, or_false, List.map_cons]
      constructor
      · rintro ((h | rfl) | ⟨h1, h2⟩)
        · exact Or.inl h
        · exact Or.inr ⟨Or.inl rfl, hl⟩
        · exact Or.inr ⟨Or.inr h1, h2⟩
      · rintro (h | ⟨rfl | h1, h2⟩)
        · exact Or.inl (Or.inl h)
        · exact Or.inl (Or.inr rfl)
        · exact Or.inr ⟨h1, h2⟩
    | some w =>
      simp only [mem_removedLoop (l := rest), List.map_cons, List.mem_cons]
      constructor
      · rintro (h | ⟨h1, h2⟩)
        · exact Or.inl h
        · exact Or.inr ⟨Or.inr h1, h2⟩
      · rintro (h | ⟨rfl | h1, h2⟩)
        · exact Or.inl h
        · rw [hl] at h2; cases h2
        · exact Or.inr ⟨h1, h2⟩

theorem compareLoop_added {existing : Table} {p : String} :
    ∀ {l : Table} {acc r : Diff}, compareLoop existing l acc = some r → p ∈ r.added →
      p ∈ acc.added ∨ ∃ key nv, (key, nv) ∈ l ∧
        ((existing.lookup key = none ∧ p = key) ∨
          ∃ ex nw sub q, existing.lookup key = some (.table ex) ∧ nv = .table nw ∧
            compareConfigs ex nw = some sub ∧ q ∈ sub.added ∧ p = key ++ "." ++ q)
  | [], acc, r, h, hp => by
    rw [compareLoop] at h
    cases h
    exact Or.inl hp
  | (key, nv) :: rest, acc, r, h, hp => by
    rw [compareLoop_cons] at h
    obtain ⟨acc2, h1, h2⟩ := Option.bind_eq_some.1 h
    have lift : (∃ k v, (k, v) ∈ rest ∧
        ((existing.lookup k = none ∧ p = k) ∨
          ∃ ex nw sub q, existing.lookup k = some (.table ex) ∧ v = .table nw ∧
            compareConfigs ex nw = some sub ∧ q ∈ sub.added ∧ p = k ++ "." ++ q)) →
        ∃ k v, (k, v) ∈ (key, nv) :: rest ∧
        ((existing.lookup k = none ∧ p = k) ∨
          ∃ ex nw sub q, existing.lookup k = some (.table ex) ∧ v = .table nw ∧
            compareConfigs ex nw = some sub ∧ q ∈ sub.added ∧ p = k ++ "." ++ q) := by
      rintro ⟨k, v, hm, hrest⟩
      exact ⟨k, v, List.mem_cons_of_mem _ hm, hrest⟩
    rcases compareLoop_added h2 hp with hin | hex
    · rcases compareEntry_cases h1 with ⟨hl, rfl⟩ | ⟨ev, hl, he, rfl⟩ | ⟨ev, hl, he, ht, rfl⟩ |
        ⟨ex, nw, sub, hl, rfl, he, hc, rfl⟩
      · rcases List.mem_append.1 hin with h3 | h3
        · exact Or.inl h3
        · rw [List.mem_singleton] at h3
          exact Or.inr ⟨key, nv, List.mem_cons_self _ _, Or.inl ⟨hl, h3⟩⟩
      · exact Or.inl hin
      · exact Or.inl hin
      · rcases List.mem_append.1 hin with h3 | h3
        · exact Or.inl h3
        · obtain ⟨q, hq, rfl⟩ := mem_qualify.1 h3
          exact Or.inr ⟨key, _, List.mem_cons_self _ _,
            Or.inr ⟨ex, nw, sub, q, hl, rfl, hc, hq, rfl⟩⟩
    · exact Or.inr (lift hex)

theorem compareLoop_removed {existing : Table} {p : String} :
    ∀ {l : Table} {acc r : Diff}, compareLoop existing l acc = some r → p ∈ r.removed →
      p ∈ acc.removed ∨ ∃ key nv, (key, nv) ∈ l ∧
          ∃ ex nw sub q, existing.lookup key = some (.table ex) ∧ nv = .table nw ∧
            compareConfigs ex nw = some sub ∧ q ∈ sub.removed ∧ p = key ++ "." ++ q
  | [], acc, r, h, hp => by
    rw [compareLoop] at h
    cases h
    exact Or.inl hp
  | (key, nv) :: rest, acc, r, h, hp => by
    rw [compareLoop_cons] at h
    obtain ⟨acc2, h1, h2⟩ := Option.bind_eq_some.1 h
    rcases compareLoop_removed h2 hp with hin | ⟨k, v, hm, hrest⟩
    · rcases compareEntry_cases h1 with ⟨hl, rfl⟩ | ⟨ev, hl, he, rfl⟩ | ⟨ev, hl, he, ht, rfl⟩ |
        ⟨ex, nw, sub, hl, rfl, he, hc, rfl⟩
      · exact Or.inl hin
      · exact Or.inl hin
      · exact Or.inl hin
      · rcases List.mem_append.1 hin with h3 | h3
        · exact Or.inl h3
        · obtain ⟨q, hq, rfl⟩ := mem_qualify.1 h3
          exact Or.inr ⟨key, _, List.mem_cons_self _ _, ex, nw, sub, q, hl, rfl, hc, hq, rfl⟩
    · exact Or.inr ⟨k, v, List.mem_cons_of_mem _ hm, hrest⟩

theorem compareLoop_modified {existing : Table} {p : String} :
    ∀ {l : Table} {acc r : Diff}, compareLoop existing l acc = some r → p ∈ r.modified →
      p ∈ acc.modified ∨ ∃ key nv, (key, nv) ∈ l ∧
        ((∃ ev, existing.lookup key = some ev ∧ deepEqual ev nv = false ∧
            ev.isTable = false ∧ p = key) ∨
          ∃ ex nw sub q, existing.lookup key = some (.table ex) ∧ nv = .table nw ∧
            compareConfigs ex nw = some sub ∧ q ∈ sub.modified ∧ p = key ++ "." ++ q)
  | [], acc, r, h, hp => by
    rw [compareLoop] at h
    cases h
    exact Or.inl hp
  | (key, nv) :: rest, acc, r, h, hp => by
    rw [compareLoop_cons] at h
    obtain ⟨acc2, h1, h2⟩ := Option.bind_eq_some.1 h
    rcases compareLoop_modified h2 hp with hin | ⟨k, v, hm, hrest⟩
    · rcases compareEntry_cases h1 with ⟨hl, rfl⟩ | ⟨ev, hl, he, rfl⟩ | ⟨ev, hl, he, ht, rfl⟩ |
        ⟨ex, nw, sub, hl, rfl, he, hc, rfl⟩
      · exact Or.inl hin
      · exact Or.inl hin
      · rcases List.mem_append.1 hin with h3 | h3
        · exact Or.inl h3
        · rw [List.mem_singleton] at h3
          exact Or.inr ⟨key, nv, List.mem_cons_self _ _, Or.inl ⟨ev, hl, he, ht, h3⟩⟩
      · rcases List.mem_append.1 hin with h3 | h3
        · exact Or.inl h3
        · obtain ⟨q, hq, rfl⟩ := mem_qualify.1 h3
          exact Or.inr ⟨key, _, List.mem_cons_self _ _,
            Or.inr ⟨ex, nw, sub, q, hl, rfl, hc, hq, rfl⟩⟩
    · exact Or.inr ⟨k, v, List.mem_cons_of_mem _ hm, hrest⟩

/-! ## Lookup in association lists -/

theorem mem_of_lookup {k : String} {v : Value} :
    ∀ {t : Table}, t.lookup k = some v → (k, v) ∈ t
  | [], h => by simp at h
  | (k2, v2) :: rest, h => by
    rw [List.lookup_cons] at h
    cases hk : (k == k2) with
    | true =>
      rw [hk] at h
      have hkk : k = k2 := by simpa using hk
      cases h
      rw [hkk]
      exact List.mem_cons_self _ _
    | false =>
      rw [hk] at h
      exact List.mem_cons_of_mem _ (mem_of_lookup h)

theorem lookup_isSome_of_key {k : String} :
    ∀ {t : Table}, k ∈ t.map Prod.fst → ∃ v, t.lookup k = some v
  | [], h => by simp at h
  | (k2, v2) :: rest, h => by
    rw [List.lookup_cons]
    cases hk : (k == k2) with
    | true => exact ⟨v2, rfl⟩
    | false =>
      have hne : k ≠ k2 := by simpa using hk
      rw [List.map_cons, List.mem_cons] at h
      rcases h with h | h
      · exact absurd h hne
      · exact lookup_isSome_of_key h

theorem lookup_none_iff {k : String} {t : Table} :
    t.lookup k = none ↔ k ∉ t.map Prod.fst := by
  constructor
  · intro h hk
    obtain ⟨v, hv⟩ := lookup_isSome_of_key hk
    rw [h] at hv; cases hv
  · intro h
    cases hl : t.lookup k with
    | none => rfl
    | some v => exact absurd (List.mem_map_of_mem Prod.fst (mem_of_lookup hl)) h

theorem lookup_of_mem {k : String} {v : Value} :
    ∀ {t : Table}, distinctKeys t = true → (k, v) ∈ t → t.lookup k = some v
  | [], _, h => by simp at h
  | (k2, v2) :: rest, hd, h => by
    have hd2 : k2 ∉ rest.map Prod.fst ∧ (rest.map Prod.fst).Nodup := by
      simpa [distinctKeys] using hd
    rw [List.lookup_cons]
    rcases List.mem_cons.1 h with h1 | h1
    · cases h1
      simp
    · have hne : k ≠ k2 := by
        intro e
        exact hd2.1 (e ▸ List.mem_map_of_mem Prod.fst h1)
      have hk : (k == k2) = false := by simpa using hne
      rw [hk]
      exact lookup_of_mem (by simpa [distinctKeys] using hd2.2) h1

/-! ## Predicates on every table of a tree -/

theorem allTablesEntries_mem {p : Table → Bool} {k : String} {v : Value} :
    ∀ {t : Table}, allTablesEntries p t = true → (k, v) ∈ t → v.allTables p = true
  | [], _, h => by simp at h
  | (k2, v2) :: rest, ha, h => by
    rw [allTablesEntries, Bool.and_eq_true] at ha
    rcases List.mem_cons.1 h with h | h
    · cases h; exact ha.1
    · exact allTablesEntries_mem ha.2 h

theorem allTables_table {p : Table → Bool} {t : Table} :
    (Value.table t).allTables p = true ↔ p t = true ∧ allTablesEntries p t = true := by
  rw [Value.allTables, Bool.and_eq_true]

theorem wfTree_distinct {t : Table} (h : wfTree t = true) : distinctKeys t = true :=
  (allTables_table.1 h).1

theorem wfTree_sub {t sub : Table} {k : String} (h : wfTree t = true)
    (hm : (k, Value.table sub) ∈ t) : wfTree sub = true :=
  allTablesEntries_mem (allTables_table.1 h).2 hm

theorem dotFree_sub {t sub : Table} {k : String} (h : dotFree t = true)
    (hm : (k, Value.table sub) ∈ t) : dotFree sub = true :=
  allTablesEntries_mem (allTables_table.1 h).2 hm

theorem dotFree_key {t : Table} {k : String} {v : Value} (h : dotFree t = true)
    (hm : (k, v) ∈ t) : '.' ∉ k.data := by
  have h1 : dotFreeKeys t = true := (allTables_table.1 h).1
  unfold dotFreeKeys at h1
  rw [List.all_eq_true] at h1
  simpa using h1 _ hm

/-! ## Reading a reported path -/

theorem splitChars_ne_nil : ∀ l : List Char, splitChars l ≠ []
  | [] => by simp [splitChars]
  | c :: cs => by
    rw [splitChars]
    split
    · simp
    · split <;> simp

theorem splitChars_dotFree : ∀ {k : List Char}, '.' ∉ k → splitChars k = [k]
  | [], _ => rfl
  | c :: cs, h => by
    have hc : c ≠ '.' := fun e => h (e ▸ List.mem_cons_self _ _)
    have hcs : '.' ∉ cs := fun e => h (List.mem_cons_of_mem _ e)
    rw [splitChars, if_neg hc, splitChars_dotFree hcs]

theorem splitChars_append : ∀ {k : List Char} (s : List Char), '.' ∉ k →
    splitChars (k ++ '.' :: s) = k :: splitChars s
  | [], s, _ => by simp [splitChars]
  | c :: cs, s, h => by
    have hc : c ≠ '.' := fun e => h (e ▸ List.mem_cons_self _ _)
    have hcs : '.' ∉ cs := fun e => h (List.mem_cons_of_mem _ e)
    rw [List.cons_append, splitChars, if_neg hc, splitChars_append s hcs]

theorem splitPath_key {key : String} (h : '.' ∉ key.data) : splitPath key = [key] := by
  unfold splitPath
  rw [splitChars_dotFree h]
  rfl

theorem splitPath_qualified {key : String} (q : String) (h : '.' ∉ key.data) :
    splitPath (key ++ "." ++ q) = key :: splitPath q := by
  unfold splitPath
  have : (key ++ "." ++ q).data = key.data ++ '.' :: q.data := by
    simp [String.data_append]
  rw [this, splitChars_append _ h]
  rfl

theorem splitPath_ne_nil (p : String) : splitPath p ≠ [] := by
  unfold splitPath
  simpa using splitChars_ne_nil p.data

theorem resolve_single (t : Table) (k : String) : resolve t [k] = t.lookup k := by
  cases h : t.lookup k <;> simp [resolve, h]

theorem resolve_cons_table {t sub : Table} {k : String} (s : String) (ss : List String)
    (hl : t.lookup k = some (.table sub)) :
    resolve t (k :: s :: ss) = resolve sub (s :: ss) := by
  simp [resolve, hl]

theorem resolve_cons_none {t : Table} {k : String} (rest : List String)
    (hl : t.lookup k = none) : resolve t (k :: rest) = none := by
  simp [resolve, hl]

theorem valueAt_key {t : Table} {key : String} (h : '.' ∉ key.data) :
    valueAt t key = t.lookup key := by
  unfold valueAt
  rw [splitPath_key h, resolve_single]

theorem valueAt_qualified_table {t sub : Table} {key : String} (q : String)
    (h : '.' ∉ key.data) (hl : t.lookup key = some (.table sub)) :
    valueAt t (key ++ "." ++ q) = valueAt sub q := by
  unfold valueAt
  rw [splitPath_qualified q h]
  obtain ⟨s, ss, hs⟩ := List.exists_cons_of_ne_nil (splitPath_ne_nil q)
  rw [hs, resolve_cons_table s ss hl]

theorem valueAt_qualified_none {t : Table} {key : String} (q : String)
    (h : '.' ∉ key.data) (hl : t.lookup key = none) :
    valueAt t (key ++ "." ++ q) = none := by
  unfold valueAt
  rw [splitPath_qualified q h, resolve_cons_none _ hl]

/-! ## Soundness of the three reports -/

theorem sizeOf_sub {t sub : Table} {k : String} (hm : (k, Value.table sub) ∈ t) :
    sizeOf sub < sizeOf t := by
  have h := List.sizeOf_lt_of_mem hm
  simp only [Prod.mk.sizeOf_spec, Value.table.sizeOf_spec] at h
  omega

theorem compareConfigs_eq_some {existing new : Table} {d : Diff}
    (h : compareConfigs existing new = some d) :
    ∃ raw, compareLoop existing new ⟨[], [], []⟩ = some raw ∧ d = finish existing new raw := by
  unfold compareConfigs at h
  obtain ⟨raw, h1, h2⟩ := Option.map_eq_some'.1 h
  exact ⟨raw, h1, h2.symm⟩

theorem key_of_mem_keys {k : String} {t : Table} (h : k ∈ t.map Prod.fst) :
    ∃ v, (k, v) ∈ t := by
  obtain ⟨⟨k2, v⟩, hm, rfl⟩ := List.mem_map.1 h
  exact ⟨v, hm⟩

/-- For trees without dots in their keys, every reported path, read as a dotted
path, leads where its report says. -/
theorem diff_sound : ∀ (n : Nat) (existing new : Table) (d : Diff), sizeOf new ≤ n →
    wfTree new = true → dotFree existing = true → dotFree new = true →
    compareConfigs existing new = some d →
    (∀ p ∈ d.added, (valueAt new p).isSome = true ∧ valueAt existing p = none) ∧
    (∀ p ∈ d.removed, (valueAt existing p).isSome = true ∧ valueAt new p = none) ∧
    (∀ p ∈ d.modified, ∃ v1 v2, valueAt existing p = some v1 ∧ valueAt new p = some v2 ∧
      deepEqual v1 v2 = false ∧ v1.isTable = false)
  | 0, existing, new, d, hn, _, _, _, _ => by
    cases new with
    | nil => simp at hn
    | cons e rest => simp at hn
  | n + 1, existing, new, d, hn, hwf, hde, hdn, hc => by
    obtain ⟨raw, hraw, rfl⟩ := compareConfigs_eq_some hc
    have nested : ∀ {key : String} {ex nw : Table} {sub : Diff},
        (key, Value.table nw) ∈ new → existing.lookup key = some (.table ex) →
        compareConfigs ex nw = some sub →
        ('.' ∉ key.data ∧ new.lookup key = some (.table nw)) ∧
        (∀ p ∈ sub.added, (valueAt nw p).isSome = true ∧ valueAt ex p = none) ∧
        (∀ p ∈ sub.removed, (valueAt ex p).isSome = true ∧ valueAt nw p = none) ∧
        (∀ p ∈ sub.modified, ∃ v1 v2, valueAt ex p = some v1 ∧ valueAt nw p = some v2 ∧
          deepEqual v1 v2 = false ∧ v1.isTable = false) := by
      intro key ex nw sub hm hl hs
      have hlt := sizeOf_sub hm
      exact ⟨⟨dotFree_key hdn hm, lookup_of_mem (wfTree_distinct hwf) hm⟩,
        diff_sound n ex nw sub (by omega) (wfTree_sub hwf hm)
          (dotFree_sub hde (mem_of_lookup hl)) (dotFree_sub hdn hm) hs⟩
    refine ⟨?_, ?_, ?_⟩
    · intro p hp
      have hp1 : p ∈ raw.added := mem_sortStrings.1 hp
      rcases compareLoop_added hraw hp1 with h0 | ⟨key, nv, hm, hcase⟩
      · simp at h0
      · rcases hcase with ⟨hl, rfl⟩ | ⟨ex, nw, sub, q, hl, rfl, hs, hq, rfl⟩
        · have hk := dotFree_key hdn hm
          rw [valueAt_key hk, valueAt_key hk, lookup_of_mem (wfTree_distinct hwf) hm]
          exact ⟨rfl, hl⟩
        · obtain ⟨⟨hk, hln⟩, ha, _, _⟩ := nested hm hl hs
          rw [valueAt_qualified_table q hk hln, valueAt_qualified_table q hk hl]
          exact ha q hq
    · intro p hp
      have hp1 : p ∈ removedLoop new existing raw.removed := mem_sortStrings.1 hp
      rcases mem_removedLoop.1 hp1 with h1 | ⟨hk1, hk2⟩
      · rcases compareLoop_removed hraw h1 with h0 | ⟨key, nv, hm, hcase⟩
        · simp at h0
        · obtain ⟨ex, nw, sub, q, hl, rfl, hs, hq, rfl⟩ := hcase
          obtain ⟨⟨hk, hln⟩, _, hr, _⟩ := nested hm hl hs
          rw [valueAt_qualified_table q hk hln, valueAt_qualified_table q hk hl]
          exact hr q hq
      · obtain ⟨v, hv⟩ := key_of_mem_keys hk1
        have hk := dotFree_key hde hv
        obtain ⟨w, hw⟩ := lookup_isSome_of_key hk1
        rw [valueAt_key hk, valueAt_key hk, hw]
        exact ⟨rfl, hk2⟩
    · intro p hp
      have hp1 : p ∈ raw.modified := mem_sortStrings.1 hp
      rcases compareLoop_modified hraw hp1 with h0 | ⟨key, nv, hm, hcase⟩
      · simp at h0
      · rcases hcase with ⟨ev, hl, he, ht, rfl⟩ | ⟨ex, nw, sub, q, hl, rfl, hs, hq, rfl⟩
        · have hk := dotFree_key hdn hm
          rw [valueAt_key hk, valueAt_key hk, lookup_of_mem (wfTree_distinct hwf) hm]
          exact ⟨ev, nv, hl, rfl, he, ht⟩
        · obtain ⟨⟨hk, hln⟩, _, _, hmo⟩ := nested hm hl hs
          rw [valueAt_qualified_table q hk hln, valueAt_qualified_table q hk hl]
          exact hmo q hq

/-! ## Deeply equal trees have an empty diff -/

theorem deepEqualMap_iff {c : Table} :
    ∀ {l : Table}, deepEqualMap l c = true ↔
      ∀ k v, (k, v) ∈ l → ∃ v2, c.lookup k = some v2 ∧ deepEqual v v2 = true
  | [] => by simp [deepEqualMap]
  | (k, v) :: rest => by
    rw [deepEqualMap, Bool.and_eq_true, deepEqualMap_iff (l := rest)]
    constructor
    · rintro ⟨h1, h2⟩ k2 v2 hm
      rcases List.mem_cons.1 hm with hm | hm
      · cases hm
        cases hl : c.lookup k with
        | none => rw [hl] at h1; cases h1
        | some w => rw [hl] at h1; exact ⟨w, rfl, h1⟩
      · exact h2 k2 v2 hm
    · intro h
      refine ⟨?_, fun k2 v2 hm => h k2 v2 (List.mem_cons_of_mem _ hm)⟩
      obtain ⟨w, hw, he⟩ := h k v (List.mem_cons_self _ _)
      rw [hw]
      exact he

theorem compareLoop_all_equal {existing : Table} :
    ∀ {l : Table} (acc : Diff),
      (∀ k nv, (k, nv) ∈ l → ∃ ev, existing.lookup k = some ev ∧ deepEqual ev nv = true) →
      compareLoop existing l acc = some acc
  | [], acc, _ => by rw [compareLoop]
  | (key, nv) :: rest, acc, h => by
    obtain ⟨ev, hl, he⟩ := h key nv (List.mem_cons_self _ _)
    rw [compareLoop_cons, compareEntry_equal acc hl he]
    exact compareLoop_all_equal acc (fun k v hm => h k v (List.mem_cons_of_mem _ hm))

theorem removedLoop_all_present {new : Table} :
    ∀ {l : Table} (acc : List String), (∀ k ∈ l.map Prod.fst, new.lookup k ≠ none) →
      removedLoop new l acc = acc
  | [], acc, _ => by rw [removedLoop]
  | (key, v) :: rest, acc, h => by
    rw [removedLoop]
    cases hl : new.lookup key with
    | none => exact absurd hl (h key (by simp))
    | some w =>
      exact removedLoop_all_present acc (fun k hk => h k (by simp [hk]))

theorem keys_subset_of_deepEqualMap {e c : Table} (h : deepEqualMap e c = true) :
    e.map Prod.fst ⊆ c.map Prod.fst := by
  intro k hk
  obtain ⟨v, hv⟩ := key_of_mem_keys hk
  obtain ⟨v2, hl, _⟩ := deepEqualMap_iff.1 h k v hv
  exact List.mem_map_of_mem Prod.fst (mem_of_lookup hl)

theorem keys_perm_of_deepEqual {e c : Table} (hde : distinctKeys e = true)
    (h : deepEqual (.table e) (.table c) = true) :
    (e.map Prod.fst).Perm (c.map Prod.fst) := by
  rw [deepEqual, Bool.and_eq_true] at h
  have hlen : e.length = c.length := by simpa using h.1
  have hnd : (e.map Prod.fst).Nodup := by simpa [distinctKeys] using hde
  exact (List.subperm_of_subset hnd (keys_subset_of_deepEqualMap h.2)).perm_of_length_le
    (by simp [hlen])

/-- Two maps that `reflect.DeepEqual` accepts have an empty diff. -/
theorem compareConfigs_of_deepEqual {e c : Table} (hde : distinctKeys e = true)
    (hdc : distinctKeys c = true) (h : deepEqual (.table e) (.table c) = true) :
    compareConfigs e c = some ⟨[], [], []⟩ := by
  have hperm := keys_perm_of_deepEqual hde h
  have hmap : deepEqualMap e c = true := by
    rw [deepEqual, Bool.and_eq_true] at h
    exact h.2
  have hloop : compareLoop e c ⟨[], [], []⟩ = some ⟨[], [], []⟩ := by
    apply compareLoop_all_equal
    intro k nv hm
    have hk : k ∈ e.map Prod.fst := hperm.mem_iff.2 (List.mem_map_of_mem Prod.fst hm)
    obtain ⟨ev, hev⟩ := key_of_mem_keys hk
    obtain ⟨v2, hl, he⟩ := deepEqualMap_iff.1 hmap k ev hev
    have : v2 = nv := by
      have := lookup_of_mem hdc hm
      rw [hl] at this
      exact Option.some.inj this
    subst this
    exact ⟨ev, lookup_of_mem hde hev, he⟩
  have hrem : removedLoop c e [] = [] := by
    apply removedLoop_all_present
    intro k hk
    rw [Ne, lookup_none_iff, not_not]
    exact hperm.mem_iff.1 hk
  unfold compareConfigs
  rw [hloop]
  simp [finish, hrem]

/-! ## Reflexivity of `reflect.DeepEqual` away from NaN -/

theorem f64Eq_self {bits : Nat} (h : f64IsNaN bits = false) : f64Eq bits bits = true := by
  simp [f64Eq, h]

mutual
theorem deepEqual_refl : ∀ v : Value, v.allTables distinctKeys = true → v.nanFree = true →
    deepEqual v v = true
  | .str s, _, _ => by simp [deepEqual]
  | .int i, _, _ => by simp [deepEqual]
  | .float bits, _, h => by
    rw [deepEqual]
    exact f64Eq_self (by simpa [Value.nanFree] using h)
  | .bool b, _, _ => by simp [deepEqual]
  | .time r, _, _ => by simp [deepEqual]
  | .list xs, hw, hn => by
    rw [deepEqual]
    exact deepEqualList_refl xs (by simpa [Value.allTables] using hw)
      (by simpa [Value.nanFree] using hn)
  | .table kvs, hw, hn => by
    rw [deepEqual, Bool.and_eq_true]
    refine ⟨by simp, deepEqualMap_iff.2 ?_⟩
    intro k v hm
    have hw2 := allTables_table.1 hw
    exact ⟨v, lookup_of_mem hw2.1 hm,
      deepEqualEntries_refl kvs hw2.2 (by simpa [Value.nanFree] using hn) k v hm⟩
theorem deepEqualList_refl : ∀ xs : List Value, allTablesList distinctKeys xs = true →
    nanFreeList xs = true → deepEqualList xs xs = true
  | [], _, _ => by rw [deepEqualList]
  | x :: xs, hw, hn => by
    rw [allTablesList, Bool.and_eq_true] at hw
    rw [nanFreeList, Bool.and_eq_true] at hn
    rw [deepEqualList, Bool.and_eq_true]
    exact ⟨deepEqual_refl x hw.1 hn.1, deepEqualList_refl xs hw.2 hn.2⟩
theorem deepEqualEntries_refl : ∀ kvs : List (String × Value),
    allTablesEntries distinctKeys kvs = true → nanFreeEntries kvs = true →
    ∀ k v, (k, v) ∈ kvs → deepEqual v v = true
  | [], _, _ => by simp
  | (k2, v2) :: rest, hw, hn => by
    rw [allTablesEntries, Bool.and_eq_true] at hw
    rw [nanFreeEntries, Bool.and_eq_true] at hn
    intro k v hm
    rcases List.mem_cons.1 hm with hm | hm
    · cases hm
      exact deepEqual_refl v2 hw.1 hn.1
    · exact deepEqualEntries_refl rest hw.2 hn.2 k v hm
end

/-! ## The diff of a tree with itself -/

/-- C1 (counterexample): a tree holding a NaN differs from itself: for the tree
with the single key `a` bound to a `float64` NaN, `compareConfigs(t, t)`
reports `a` as modified. -/
theorem compareConfigs_self_nan :
    wfTree [("a", .float 0x7ff8000000000000)] = true ∧
    compareConfigs [("a", .float 0x7ff8000000000000)] [("a", .float 0x7ff8000000000000)]
      = some ⟨[], [], ["a"]⟩ := by
  decide

/-- C1 (amended): for every tree `t` that holds no NaN, `compareConfigs(t, t)`
returns three empty sequences. -/
theorem compareConfigs_self (t : Table) (hw : wfTree t = true)
    (hn : (Value.table t).nanFree = true) :
    compareConfigs t t = some ⟨[], [], []⟩ :=
  compareConfigs_of_deepEqual (wfTree_distinct hw) (wfTree_distinct hw)
    (deepEqual_refl (.table t) hw hn)

theorem compareConfigs_self_witness :
    wfTree [("parent", .table [("child1", .str "value1"), ("rate", .float 0)]),
        ("param2", .int 42)] = true ∧
    (Value.table [("parent", .table [("child1", .str "value1"), ("rate", .float 0)]),
        ("param2", .int 42)]).nanFree = true ∧
    compareConfigs
      [("parent", .table [("child1", .str "value1"), ("rate", .float 0)]), ("param2", .int 42)]
      [("parent", .table [("child1", .str "value1"), ("rate", .float 0)]), ("param2", .int 42)]
      = some ⟨[], [], []⟩ :=
  ⟨by decide, by decide, compareConfigs_self _ (by decide) (by decide)⟩

/-! ## What the reported paths denote -/

/-- C2 (counterexample): with a key that contains a dot the report is not sound:
`existing` has a table `a` holding `b`, `canonical` has the same table and the
key `"a.b"`.  The path `a.b` is reported as added, yet read as a dotted path
it leads to a value in `existing`. -/
theorem added_path_present_in_existing :
    wfTree [("a", .table [("b", .int 1)])] = true ∧
    wfTree [("a", .table [("b", .int 1)]), ("a.b", .int 2)] = true ∧
    compareConfigs [("a", .table [("b", .int 1)])]
      [("a", .table [("b", .int 1)]), ("a.b", .int 2)] = some ⟨["a.b"], [], []⟩ ∧
    (valueAt [("a", .table [("b", .int 1)])] "a.b").isSome = true := by
  decide

/-- C2 (amended): for trees none of whose keys contains a dot, every path in
`added` leads to a value in `canonical` and to none in `existing`, and every path
in `removed` leads to a value in `existing` and to none in `canonical`. -/
theorem added_removed_sound (existing canonical : Table) (d : Diff)
    (hw : wfTree canonical = true) (hde : dotFree existing = true)
    (hdc : dotFree canonical = true) (h : compareConfigs existing canonical = some d) :
    (∀ p ∈ d.added, (valueAt canonical p).isSome = true ∧ valueAt existing p = none) ∧
    (∀ p ∈ d.removed, (valueAt existing p).isSome = true ∧ valueAt canonical p = none) :=
  have hs := diff_sound (sizeOf canonical) existing canonical d (Nat.le_refl _) hw hde hdc h
  ⟨hs.1, hs.2.1⟩

theorem added_removed_sound_witness :
    wfTree [("parent", .table [("child1", .str "value1"), ("child2", .str "new_value")])]
      = true ∧
    dotFree [("parent", .table [("child1", .str "value1")]), ("old", .int 1)] = true ∧
    dotFree [("parent", .table [("child1", .str "value1"), ("child2", .str "new_value")])]
      = true ∧
    compareConfigs [("parent", .table [("child1", .str "value1")]), ("old", .int 1)]
      [("parent", .table [("child1", .str "value1"), ("child2", .str "new_value")])]
      = some ⟨["parent.child2"], ["old"], []⟩ ∧
    ((∀ p ∈ ["parent.child2"],
        (valueAt [("parent", .table [("child1", .str "value1"),
          ("child2", .str "new_value")])] p).isSome = true ∧
        valueAt [("parent", .table [("child1", .str "value1")]), ("old", .int 1)] p = none) ∧
      (∀ p ∈ ["old"],
        (valueAt [("parent", .table [("child1", .str "value1")]), ("old", .int 1)] p).isSome
          = true ∧
        valueAt [("parent", .table [("child1", .str "value1"),
          ("child2", .str "new_value")])] p = none)) :=
  ⟨by decide, by decide, by decide, by decide,
    added_removed_sound [("parent", .table [("child1", .str "value1")]), ("old", .int 1)]
      [("parent", .table [("child1", .str "value1"), ("child2", .str "new_value")])]
      ⟨["parent.child2"], ["old"], []⟩ (by decide) (by decide) (by decide) (by decide)⟩

/-- C3 (counterexample): with a key that contains a dot, a path that is a
nested table in both trees, with deeply equal values, is listed in `modified`:
both trees hold the table `a.b`, and the key `"a.b"` bound to 5 and to 6. -/
theorem modified_path_equal_tables :
    wfTree [("a", .table [("b", .table [("x", .int 1)])]), ("a.b", .int 5)] = true ∧
    wfTree [("a", .table [("b", .table [("x", .int 1)])]), ("a.b", .int 6)] = true ∧
    compareConfigs [("a", .table [("b", .table [("x", .int 1)])]), ("a.b", .int 5)]
      [("a", .table [("b", .table [("x", .int 1)])]), ("a.b", .int 6)]
      = some ⟨[], [], ["a.b"]⟩ ∧
    valueAt [("a", .table [("b", .table [("x", .int 1)])]), ("a.b", .int 5)] "a.b"
      = some (.table [("x", .int 1)]) ∧
    valueAt [("a", .table [("b", .table [("x", .int 1)])]), ("a.b", .int 6)] "a.b"
      = some (.table [("x", .int 1)]) ∧
    deepEqual (.table [("x", .int 1)]) (.table [("x", .int 1)]) = true :=
  ⟨by decide, by decide, by decide, rfl, rfl, by decide⟩

/-- C3 (amended): for trees none of whose keys contains a dot, every path in
`modified` leads to a value in both trees, the two values are not deeply equal
and at least one of them is not a nested table; a path that is a nested table
in both trees is not in `modified`. -/
theorem modified_sound (existing canonical : Table) (d : Diff)
    (hw : wfTree canonical = true) (hde : dotFree existing = true)
    (hdc : dotFree canonical = true) (h : compareConfigs existing canonical = some d) :
    (∀ p ∈ d.modified, ∃ v1 v2, valueAt existing p = some v1 ∧ valueAt canonical p = some v2 ∧
      deepEqual v1 v2 = false ∧ (v1.isTable = false ∨ v2.isTable = false)) ∧
    (∀ p t1 t2, valueAt existing p = some (.table t1) → valueAt canonical p = some (.table t2) →
      p ∉ d.modified) := by
  have hs := diff_sound (sizeOf canonical) existing canonical d (Nat.le_refl _) hw hde hdc h
  constructor
  · intro p hp
    obtain ⟨v1, v2, h1, h2, h3, h4⟩ := hs.2.2 p hp
    exact ⟨v1, v2, h1, h2, h3, Or.inl h4⟩
  · intro p t1 t2 h1 h2 hp
    obtain ⟨v1, v2, h3, _, _, h4⟩ := hs.2.2 p hp
    rw [h1] at h3
    cases h3
    simp [Value.isTable] at h4

theorem modified_sound_witness :
    wfTree [("param1", .str "different_value"), ("param2", .int 100)] = true ∧
    dotFree [("param1", .str "value1"), ("param2", .int 42)] = true ∧
    dotFree [("param1", .str "different_value"), ("param2", .int 100)] = true ∧
    compareConfigs [("param1", .str "value1"), ("param2", .int 42)]
      [("param1", .str "different_value"), ("param2", .int 100)]
      = some ⟨[], [], ["param1", "param2"]⟩ ∧
    ((∀ p ∈ ["param1", "param2"], ∃ v1 v2,
        valueAt [("param1", .str "value1"), ("param2", .int 42)] p = some v1 ∧
        valueAt [("param1", .str "different_value"), ("param2", .int 100)] p = some v2 ∧
        deepEqual v1 v2 = false ∧ (v1.isTable = false ∨ v2.isTable = false)) ∧
      (∀ p t1 t2,
        valueAt [("param1", .str "value1"), ("param2", .int 42)] p = some (.table t1) →
        valueAt [("param1", .str "different_value"), ("param2", .int 100)] p
          = some (.table t2) →
        p ∉ ["param1", "param2"])) :=
  ⟨by decide, by decide, by decide, by decide,
    modified_sound [("param1", .str "value1"), ("param2", .int 42)]
      [("param1", .str "different_value"), ("param2", .int 100)]
      ⟨[], [], ["param1", "param2"]⟩ (by decide) (by decide) (by decide) (by decide)⟩

/-- C4 (counterexample): with a key that contains a dot one path is reported
twice: the nested key `b` added under `a` and the removed top-level key `"a.b"`
both give the path `a.b`, in `added` and in `removed`. -/
theorem added_removed_overlap :
    wfTree [("a", .table [("x", .int 1)]), ("a.b", .int 1)] = true ∧
    wfTree [("a", .table [("x", .int 1), ("b", .int 2)])] = true ∧
    compareConfigs [("a", .table [("x", .int 1)]), ("a.b", .int 1)]
      [("a", .table [("x", .int 1), ("b", .int 2)])] = some ⟨["a.b"], ["a.b"], []⟩ := by
  decide

/-- C4 (amended): for trees none of whose keys contains a dot, the three
sequences `compareConfigs` returns are pairwise disjoint. -/
theorem diff_pairwise_disjoint (existing canonical : Table) (d : Diff)
    (hw : wfTree canonical = true) (hde : dotFree existing = true)
    (hdc : dotFree canonical = true) (h : compareConfigs existing canonical = some d) :
    d.added.Disjoint d.removed ∧ d.added.Disjoint d.modified ∧
      d.removed.Disjoint d.modified := by
  have hs := diff_sound (sizeOf canonical) existing canonical d (Nat.le_refl _) hw hde hdc h
  refine ⟨?_, ?_, ?_⟩
  · intro p ha hr
    have h1 := (hs.1 p ha).2
    have h2 := (hs.2.1 p hr).1
    rw [h1] at h2
    cases h2
  · intro p ha hm
    have h1 := (hs.1 p ha).2
    obtain ⟨v1, v2, h2, _⟩ := hs.2.2 p hm
    rw [h1] at h2
    cases h2
  · intro p hr hm
    have h1 := (hs.2.1 p hr).2
    obtain ⟨v1, v2, _, h2, _⟩ := hs.2.2 p hm
    rw [h1] at h2
    cases h2

theorem diff_pairwise_disjoint_witness :
    wfTree [("a", .table [("x", .int 1), ("b", .int 2)]), ("n", .int 3)] = true ∧
    dotFree [("a", .table [("x", .int 1)]), ("gone", .int 1), ("n", .int 2)] = true ∧
    dotFree [("a", .table [("x", .int 1), ("b", .int 2)]), ("n", .int 3)] = true ∧
    compareConfigs [("a", .table [("x", .int 1)]), ("gone", .int 1), ("n", .int 2)]
      [("a", .table [("x", .int 1), ("b", .int 2)]), ("n", .int 3)]
      = some ⟨["a.b"], ["gone"], ["n"]⟩ ∧
    (["a.b"].Disjoint ["gone"] ∧ ["a.b"].Disjoint ["n"] ∧ ["gone"].Disjoint ["n"]) :=
  ⟨by decide, by decide, by decide, by decide,
    diff_pairwise_disjoint
      [("a", .table [("x", .int 1)]), ("gone", .int 1), ("n", .int 2)]
      [("a", .table [("x", .int 1), ("b", .int 2)]), ("n", .int 3)]
      ⟨["a.b"], ["gone"], ["n"]⟩ (by decide) (by decide) (by decide) (by decide)⟩

/-! ## A table against a scalar -/

/-- Whenever some key is bound to a table in `existing` and to a value that is
not a table in `new`, the first loop panics. -/
theorem compareLoop_panics {existing : Table} {key : String} {ex : Table} {nv : Value}
    (hl : existing.lookup key = some (.table ex)) (ht : nv.isTable = false) :
    ∀ {l : Table} (acc : Diff), (key, nv) ∈ l → compareLoop existing l acc = none
  | [], _, h => by simp at h
  | (k2, v2) :: rest, acc, h => by
    rw [compareLoop_cons]
    rcases List.mem_cons.1 h with h1 | h1
    · cases h1
      rw [compareEntry_panics acc hl ht]
      rfl
    · cases compareEntry existing k2 v2 acc with
      | none => rfl
      | some acc2 => exact compareLoop_panics hl ht acc2 h1

/-- C5 (the code at the failing input): with the key `k` bound to a table in
`existing` and to a scalar in `canonical`, `compareConfigs` panics instead of
listing `k` in `modified`; in the other direction it lists `k`. -/
theorem table_against_scalar_panics :
    compareConfigs [("k", .table [("a", .int 1)])] [("k", .int 1)] = none ∧
    compareConfigs [("k", .int 1)] [("k", .table [("a", .int 1)])]
      = some ⟨[], [], ["k"]⟩ := by
  decide

/-! ## Nested tables -/

theorem finish_sorted (existing new : Table) (raw : Diff) :
    (finish existing new raw).added.Sorted (· ≤ ·) ∧
    (finish existing new raw).removed.Sorted (· ≤ ·) ∧
    (finish existing new raw).modified.Sorted (· ≤ ·) :=
  ⟨sortStrings_sorted _, sortStrings_sorted _, sortStrings_sorted _⟩

theorem sorted_of_compareConfigs {existing new : Table} {d : Diff}
    (h : compareConfigs existing new = some d) :
    d.added.Sorted (· ≤ ·) ∧ d.removed.Sorted (· ≤ ·) ∧ d.modified.Sorted (· ≤ ·) := by
  obtain ⟨raw, _, rfl⟩ := compareConfigs_eq_some h
  exact finish_sorted existing new raw

theorem lookup_single (k : String) (v : Value) : List.lookup k [(k, v)] = some v := by
  simp [List.lookup]

theorem compareConfigs_single_tables (k : String) (e c : Table)
    (hde : distinctKeys e = true) (hdc : distinctKeys c = true) :
    compareConfigs [(k, .table e)] [(k, .table c)]
      = (compareConfigs e c).map
          (fun d => ⟨qualify k d.added, qualify k d.removed, qualify k d.modified⟩) := by
  have hrem : ∀ acc, removedLoop [(k, Value.table c)] [(k, Value.table e)] acc = acc := by
    intro acc
    apply removedLoop_all_present
    intro k2 hk2
    simp only [List.map_cons, List.map_nil, List.mem_singleton] at hk2
    subst hk2
    rw [lookup_single]
    exact fun h => Option.noConfusion h
  cases he : deepEqual (.table e) (.table c) with
  | true =>
    rw [compareConfigs_of_deepEqual hde hdc he]
    unfold compareConfigs
    rw [compareLoop_cons, compareEntry_equal _ (lookup_single k _) he]
    simp [compareLoop, finish, hrem, qualify]
  | false =>
    unfold compareConfigs
    rw [compareLoop_cons, compareEntry_tables _ (lookup_single k _) he]
    cases hc : compareConfigs e c with
    | none =>
      have : compareLoop e c ⟨[], [], []⟩ = none := by
        unfold compareConfigs at hc
        simpa using hc
      simp [this]
    | some sub =>
      obtain ⟨ha, hr, hm⟩ := sorted_of_compareConfigs hc
      unfold compareConfigs at hc
      rw [hc]
      simp only [Option.map_some', Option.some_bind, compareLoop, Diff.merge, finish, hrem,
        List.nil_append]
      rw [sortStrings_of_sorted (qualify_sorted k ha), sortStrings_of_sorted (qualify_sorted k hr),
        sortStrings_of_sorted (qualify_sorted k hm)]

/-- C9: for a key `k` and nested tables `e` and `c`, the diff of `{k: e}`
against `{k: c}` is the diff of `e` against `c` with `k` and a dot put before
every path, sequence by sequence, and `k` itself is in none of the three. -/
theorem nested_table_diff (k : String) (e c : Table)
    (hde : distinctKeys e = true) (hdc : distinctKeys c = true) :
    compareConfigs [(k, .table e)] [(k, .table c)]
      = (compareConfigs e c).map
          (fun d => ⟨qualify k d.added, qualify k d.removed, qualify k d.modified⟩) ∧
    ∀ d, compareConfigs [(k, .table e)] [(k, .table c)] = some d →
      k ∉ d.added ∧ k ∉ d.removed ∧ k ∉ d.modified := by
  have h := compareConfigs_single_tables k e c hde hdc
  refine ⟨h, ?_⟩
  intro d hd
  rw [h] at hd
  obtain ⟨sub, _, rfl⟩ := Option.map_eq_some'.1 hd
  exact ⟨key_not_mem_qualify k _, key_not_mem_qualify k _, key_not_mem_qualify k _⟩

theorem nested_table_diff_witness :
    distinctKeys [("child1", .str "value1")] = true ∧
    distinctKeys [("child1", .str "value1"), ("child2", .str "new_value")] = true ∧
    compareConfigs [("child1", .str "value1")]
      [("child1", .str "value1"), ("child2", .str "new_value")] = some ⟨["child2"], [], []⟩ ∧
    compareConfigs [("parent", .table [("child1", .str "value1")])]
      [("parent", .table [("child1", .str "value1"), ("child2", .str "new_value")])]
      = some ⟨["parent.child2"], [], []⟩ ∧
    (compareConfigs [("parent", .table [("child1", .str "value1")])]
      [("parent", .table [("child1", .str "value1"), ("child2", .str "new_value")])]
      = (compareConfigs [("child1", .str "value1")]
          [("child1", .str "value1"), ("child2", .str "new_value")]).map
          (fun d => ⟨qualify "parent" d.added, qualify "parent" d.removed,
            qualify "parent" d.modified⟩) ∧
    ∀ d, compareConfigs [("parent", .table [("child1", .str "value1")])]
      [("parent", .table [("child1", .str "value1"), ("child2", .str "new_value")])] = some d →
      "parent" ∉ d.added ∧ "parent" ∉ d.removed ∧ "parent" ∉ d.modified) :=
  ⟨by decide, by decide, by decide, by decide,
    nested_table_diff "parent" [("child1", .str "value1")]
      [("child1", .str "value1"), ("child2", .str "new_value")] (by decide) (by decide)⟩

/-! ## Order of the output -/

/-- C10: each of the three sequences `compareConfigs` returns, the paths
merged in from nested tables included, is sorted in ascending order. -/
theorem compareConfigs_sorted (existing canonical : Table) (d : Diff)
    (h : compareConfigs existing canonical = some d) :
    d.added.Sorted (· ≤ ·) ∧ d.removed.Sorted (· ≤ ·) ∧ d.modified.Sorted (· ≤ ·) :=
  sorted_of_compareConfigs h

theorem compareConfigs_sorted_witness :
    compareConfigs
      [("z", .int 1), ("m", .table [("q", .int 1), ("b", .int 1)]), ("c", .int 1)]
      [("y", .int 1), ("m", .table [("r", .int 1), ("b", .int 2), ("a", .int 1)]),
        ("n", .int 0), ("c", .int 2)]
      = some ⟨["m.a", "m.r", "n", "y"], ["m.q", "z"], ["c", "m.b"]⟩ ∧
    (["m.a", "m.r", "n", "y"].Sorted (· ≤ ·) ∧ ["m.q", "z"].Sorted (· ≤ ·) ∧
      ["c", "m.b"].Sorted (· ≤ ·)) :=
  ⟨by decide,
    compareConfigs_sorted
      [("z", .int 1), ("m", .table [("q", .int 1), ("b", .int 1)]), ("c", .int 1)]
      [("y", .int 1), ("m", .table [("r", .int 1), ("b", .int 2), ("a", .int 1)]),
        ("n", .int 0), ("c", .int 2)]
      ⟨["m.a", "m.r", "n", "y"], ["m.q", "z"], ["c", "m.b"]⟩ (by decide)⟩

/-! ## The driver -/

theorem drift_iff (d : Diff) :
    (d.added.length > 0 ∨ d.removed.length > 0 ∨ d.modified.length > 0) ↔
      (d.added ≠ [] ∨ d.removed ≠ [] ∨ d.modified ≠ []) := by
  simp [List.length_pos]

/-- C6 (counterexample): a file with drift that can be read but not written:
the call with `autoUpdate = true` returns the write error. -/
theorem autoUpdate_write_error :
    compareConfigs [("param1", .str "value1")]
      [("param1", .str "value1"), ("param2", .str "new_value")] = some ⟨["param2"], [], []⟩ ∧
    (CheckAndUpdateFile testToml "config" "test.toml"
        [("param1", .str "value1"), ("param2", .str "new_value")] true
        (readOnlyWorld "param1 = \"value1\"\n")).map (fun o => o.err)
      = some (some "error writing updated test.toml: permission denied") :=
  ⟨by decide, rfl⟩

/-- C6 (amended): for a file whose trees differ and that can be written, the call
with `autoUpdate = true` returns no error and leaves the file holding exactly
the canonical bytes. -/
theorem autoUpdate_overwrites {α : Type} (toml : Toml α) (configPath fileName : String)
    (defaultConfig : α) (w : World) (existingContent newContent : String)
    (existingMap newMap : Table) (d : Diff)
    (hread : w.files (joinPath configPath fileName) = .ok existingContent)
    (hex : toml.unmarshal existingContent = .ok existingMap)
    (hnew : toml.marshal defaultConfig = .ok newContent)
    (hcan : toml.unmarshal newContent = .ok newMap)
    (hdiff : compareConfigs existingMap newMap = some d)
    (hdrift : d.added ≠ [] ∨ d.removed ≠ [] ∨ d.modified ≠ [])
    (hwrite : w.writeFault (joinPath configPath fileName) = none) :
    ∃ o, CheckAndUpdateFile toml configPath fileName defaultConfig true w = some o ∧
      o.err = none ∧ o.world.files (joinPath configPath fileName) = .ok newContent := by
  have hd := (drift_iff d).2 hdrift
  simp [CheckAndUpdateFile, hread, hex, hnew, hcan, hdiff, hd, shouldUpdate, writeFile, hwrite]

theorem autoUpdate_overwrites_witness :
    compareConfigs [("param1", .str "value1")]
      [("param1", .str "value1"), ("param2", .str "new_value")] = some ⟨["param2"], [], []⟩ ∧
    ∃ o, CheckAndUpdateFile testToml "config" "test.toml"
        [("param1", .str "value1"), ("param2", .str "new_value")] true
        (testWorld "param1 = \"value1\"\n" []) = some o ∧
      o.err = none ∧
      o.world.files (joinPath "config" "test.toml")
        = .ok "param1 = 'value1'\nparam2 = 'new_value'\n" :=
  ⟨by decide,
    autoUpdate_overwrites testToml "config" "test.toml"
      [("param1", .str "value1"), ("param2", .str "new_value")]
      (testWorld "param1 = \"value1\"\n" []) "param1 = \"value1\"\n"
      "param1 = 'value1'\nparam2 = 'new_value'\n" [("param1", .str "value1")]
      [("param1", .str "value1"), ("param2", .str "new_value")] ⟨["param2"], [], []⟩
      rfl rfl rfl rfl (by decide) (by decide) rfl⟩

/-- C7 (the code at the failing input): in the test "No changes" the two trees
have the same keys and differ in both values; the call with `autoUpdate = true`
reports both keys as modified and replaces the file by the canonical bytes, so
the file no longer holds `value1` and `42`. -/
theorem value_changes_overwrite :
    compareConfigs [("param1", .str "value1"), ("param2", .int 42)]
      [("param1", .str "different_value"), ("param2", .int 100)]
      = some ⟨[], [], ["param1", "param2"]⟩ ∧
    (CheckAndUpdateFile testToml "config" "test.toml"
        [("param1", .str "different_value"), ("param2", .int 100)] true
        (testWorld "param1 = \"value1\"\nparam2 = 42\n" [])).map
        (fun o => (o.err, o.world.files "config/test.toml"))
      = some (none, .ok "param1 = 'different_value'\nparam2 = 100\n") :=
  ⟨by decide, rfl⟩

/-! ## The answer to the prompt -/

theorem isSpace_newline : isSpace '\n' = true := by decide

theorem scanlnString_nil : scanlnString [] = ⟨"", some "EOF", []⟩ := rfl

theorem scanlnString_newline (rs : List Char) :
    (scanlnString ('\n' :: rs)).response = "" := by
  simp [scanlnString, skipSpace]

theorem scanlnString_blank {r : Char} (rs : List Char) (h1 : r ≠ '\n')
    (h2 : isSpace r = true) : scanlnString (r :: rs) = scanlnString rs := by
  simp [scanlnString, skipSpace, h1, h2]

theorem scanlnString_word {r : Char} (rs : List Char) (h : isSpace r = false) :
    (scanlnString (r :: rs)).response
      = String.mk (r :: rs.takeWhile (fun c => !isSpace c)) := by
  have h1 : r ≠ '\n' := by
    intro e
    rw [e, isSpace_newline] at h
    cases h
  have hs : skipSpace (r :: rs) = (r :: rs, false) := by
    simp [skipSpace, h1, h]
  unfold scanlnString
  rw [hs]
  simp only
  rcases expectNewline (List.dropWhile (fun c => !isSpace c) (r :: rs)) with ⟨rest, b⟩
  cases b <;> simp [List.takeWhile, h]

theorem takeWhile_eq_nil_iff_head (rs : List Char) :
    rs.takeWhile (fun c => !isSpace c) = [] ↔ ∀ r ∈ rs.head?, isSpace r = true := by
  cases rs with
  | nil => simp
  | cons x xs =>
    cases hx : isSpace x <;> simp [List.takeWhile, hx]

/-- The stored word is the single character `c` exactly when the input is
blanks without a newline, then `c`, then a blank or the end of input. -/
theorem response_char_iff (c : Char) (hc : isSpace c = false) :
    ∀ input : List Char, (scanlnString input).response = String.mk [c] ↔
      ∃ blanks rest, input = blanks ++ c :: rest ∧
        (∀ b ∈ blanks, isSpace b = true ∧ b ≠ '\n') ∧ (∀ r ∈ rest.head?, isSpace r = true)
  | [] => by
    rw [scanlnString_nil]
    constructor
    · intro h
      have := congrArg String.data h
      simp at this
    · rintro ⟨blanks, rest, h, _⟩
      simp at h
  | r :: rs => by
    by_cases h1 : r = '\n'
    · subst h1
      rw [scanlnString_newline]
      constructor
      · intro h
        have := congrArg String.data h
        simp at this
      · rintro ⟨blanks, rest, h, hb, _⟩
        cases blanks with
        | nil =>
          simp only [List.nil_append, List.cons.injEq] at h
          rw [← h.1, isSpace_newline] at hc
          cases hc
        | cons b bs =>
          simp only [List.cons_append, List.cons.injEq] at h
          exact absurd h.1.symm (hb b (List.mem_cons_self _ _)).2
    · cases h2 : isSpace r with
      | true =>
        rw [scanlnString_blank rs h1 h2, response_char_iff c hc rs]
        constructor
        · rintro ⟨blanks, rest, h, hb, hr⟩
          refine ⟨r :: blanks, rest, by simp [h], ?_, hr⟩
          intro b hbm
          rcases List.mem_cons.1 hbm with e | e
          · subst e; exact ⟨h2, h1⟩
          · exact hb b e
        · rintro ⟨blanks, rest, h, hb, hr⟩
          cases blanks with
          | nil =>
            simp only [List.nil_append, List.cons.injEq] at h
            rw [h.1, hc] at h2
            cases h2
          | cons b bs =>
            simp only [List.cons_append, List.cons.injEq] at h
            exact ⟨bs, rest, h.2, fun x hx => hb x (List.mem_cons_of_mem _ hx), hr⟩
      | false =>
        rw [scanlnString_word rs h2, String.ext_iff]
        simp only [List.cons.injEq]
        rw [takeWhile_eq_nil_iff_head]
        constructor
        · rintro ⟨e, hr⟩
          exact ⟨[], rs, by simp [e], by simp, hr⟩
        · rintro ⟨blanks, rest, h, hb, hr⟩
          cases blanks with
          | nil =>
            simp only [List.nil_append, List.cons.injEq] at h
            rw [h.2]
            exact ⟨h.1, hr⟩
          | cons b bs =>
            simp only [List.cons_append, List.cons.injEq] at h
            have := (hb b (List.mem_cons_self _ _)).1
            rw [← h.1, h2] at this
            cases this

/-- The word stored is `y` or `Y` exactly when the characters waiting on
standard input are blanks without a newline, then `y` or `Y`, then a blank, a
newline or the end of input. -/
theorem answers_yes_iff (input : List Char) :
    ((scanlnString input).response = "y" ∨ (scanlnString input).response = "Y") ↔
      ∃ blanks c rest, input = blanks ++ c :: rest ∧
        (∀ b ∈ blanks, isSpace b = true ∧ b ≠ '\n') ∧ (c = 'y' ∨ c = 'Y') ∧
        (∀ r ∈ rest.head?, isSpace r = true) := by
  have hy := response_char_iff 'y' (by decide) input
  have hY := response_char_iff 'Y' (by decide) input
  constructor
  · rintro (h | h)
    · obtain ⟨blanks, rest, h1, h2, h3⟩ := hy.1 h
      exact ⟨blanks, 'y', rest, h1, h2, Or.inl rfl, h3⟩
    · obtain ⟨blanks, rest, h1, h2, h3⟩ := hY.1 h
      exact ⟨blanks, 'Y', rest, h1, h2, Or.inr rfl, h3⟩
  · rintro ⟨blanks, c, rest, h1, h2, rfl | rfl, h3⟩
    · exact Or.inl (hy.2 ⟨blanks, rest, h1, h2, h3⟩)
    · exact Or.inr (hY.2 ⟨blanks, rest, h1, h2, h3⟩)

theorem shouldUpdate_false (fileName : String) (w : World) :
    shouldUpdate fileName false w
      = (((scanlnString w.stdin).response == "y" || (scanlnString w.stdin).response == "Y"),
        { w with
          stdout := w.stdout ++
            ["Do you want to update " ++ fileName ++ " with the new structure? (y/n): "]
          stdin := (scanlnString w.stdin).rest }) := rfl

theorem decision_false_iff (fileName : String) (w : World) :
    (shouldUpdate fileName false w).1 = true ↔
      ((scanlnString w.stdin).response = "y" ∨ (scanlnString w.stdin).response = "Y") := by
  rw [shouldUpdate_false]
  simp

/-- A call that loads both trees, computes a diff and gets a negative decision
returns no error and leaves every file as it was. -/
theorem declined_outcome {α : Type} (toml : Toml α) (configPath fileName : String)
    (defaultConfig : α) (w : World) (existingContent newContent : String)
    (existingMap newMap : Table) (d : Diff)
    (hread : w.files (joinPath configPath fileName) = .ok existingContent)
    (hex : toml.unmarshal existingContent = .ok existingMap)
    (hnew : toml.marshal defaultConfig = .ok newContent)
    (hcan : toml.unmarshal newContent = .ok newMap)
    (hdiff : compareConfigs existingMap newMap = some d)
    (hdec : (shouldUpdate fileName false w).1 = false) :
    ∃ o, CheckAndUpdateFile toml configPath fileName defaultConfig false w = some o ∧
      o.err = none ∧ o.world.files = w.files := by
  have hresp : ((scanlnString w.stdin).response == "y"
      || (scanlnString w.stdin).response == "Y") = false := by
    rw [shouldUpdate_false] at hdec
    exact hdec
  by_cases hd : d.added.length > 0 ∨ d.removed.length > 0 ∨ d.modified.length > 0
  · simp [CheckAndUpdateFile, hread, hex, hnew, hcan, hdiff, hd, shouldUpdate_false, hresp]
  · simp [CheckAndUpdateFile, hread, hex, hnew, hcan, hdiff, hd]

/-- C8 (counterexample): a file with drift, `autoUpdate = false`, and the
answers `y extra` and ` y`, which are other than `y` and `Y`: `fmt.Scanln`
stores the word `y`, and the call replaces the file by the canonical bytes. -/
theorem declined_answer_overwrites :
    compareConfigs [("param1", .str "value1"), ("param2", .int 42)]
      [("param1", .str "different_value"), ("param2", .int 100)]
      = some ⟨[], [], ["param1", "param2"]⟩ ∧
    (testWorld "param1 = \"value1\"\nparam2 = 42\n" ["y extra"]).stdin = "y extra\n".data ∧
    (CheckAndUpdateFile testToml "config" "test.toml"
        [("param1", .str "different_value"), ("param2", .int 100)] false
        (testWorld "param1 = \"value1\"\nparam2 = 42\n" ["y extra"])).map
        (fun o => (o.err, o.world.files "config/test.toml"))
      = some (none, .ok "param1 = 'different_value'\nparam2 = 100\n") ∧
    (CheckAndUpdateFile testToml "config" "test.toml"
        [("param1", .str "different_value"), ("param2", .int 100)] false
        (testWorld "param1 = \"value1\"\nparam2 = 42\n" [" y"])).map
        (fun o => (o.err, o.world.files "config/test.toml"))
      = some (none, .ok "param1 = 'different_value'\nparam2 = 100\n") :=
  ⟨by decide, rfl, rfl, rfl⟩

/-- C8 (amended): for a file with drift, the call with `autoUpdate = false` and
an answer whose first word is other than `y` and `Y` (the characters waiting on
standard input are not blanks, then `y` or `Y`, then a blank, a newline or the
end of input), the empty answer included, returns no error and leaves every
file as it was. -/
theorem declined_leaves_file {α : Type} (toml : Toml α) (configPath fileName : String)
    (defaultConfig : α) (w : World) (existingContent newContent : String)
    (existingMap newMap : Table) (d : Diff)
    (hread : w.files (joinPath configPath fileName) = .ok existingContent)
    (hex : toml.unmarshal existingContent = .ok existingMap)
    (hnew : toml.marshal defaultConfig = .ok newContent)
    (hcan : toml.unmarshal newContent = .ok newMap)
    (hdiff : compareConfigs existingMap newMap = some d)
    (hdrift : d.added ≠ [] ∨ d.removed ≠ [] ∨ d.modified ≠ [])
    (hno : ¬ ∃ blanks c rest, w.stdin = blanks ++ c :: rest ∧
      (∀ b ∈ blanks, isSpace b = true ∧ b ≠ '\n') ∧ (c = 'y' ∨ c = 'Y') ∧
      (∀ r ∈ rest.head?, isSpace r = true)) :
    ∃ o, CheckAndUpdateFile toml configPath fileName defaultConfig false w = some o ∧
      o.err = none ∧ o.world.files = w.files := by
  have hd := (drift_iff d).2 hdrift
  have hresp : ((scanlnString w.stdin).response == "y"
      || (scanlnString w.stdin).response == "Y") = false := by
    cases h : ((scanlnString w.stdin).response == "y"
        || (scanlnString w.stdin).response == "Y") with
    | false => rfl
    | true =>
      have h2 : (shouldUpdate fileName false w).1 = true := by
        rw [shouldUpdate_false]; exact h
      exact absurd ((answers_yes_iff _).1 ((decision_false_iff fileName w).1 h2)) hno
  simp [CheckAndUpdateFile, hread, hex, hnew, hcan, hdiff, hd, shouldUpdate_false, hresp]

theorem declined_leaves_file_witness :
    compareConfigs [("param1", .str "value1"), ("param2", .int 42)]
      [("param1", .str "different_value"), ("param2", .int 100)]
      = some ⟨[], [], ["param1", "param2"]⟩ ∧
    (testWorld "param1 = \"value1\"\nparam2 = 42\n" ["yes"]).stdin = "yes\n".data ∧
    (¬ ∃ blanks c rest,
      (testWorld "param1 = \"value1\"\nparam2 = 42\n" ["yes"]).stdin = blanks ++ c :: rest ∧
      (∀ b ∈ blanks, isSpace b = true ∧ b ≠ '\n') ∧ (c = 'y' ∨ c = 'Y') ∧
      (∀ r ∈ rest.head?, isSpace r = true)) ∧
    ∃ o, CheckAndUpdateFile testToml "config" "test.toml"
        [("param1", .str "different_value"), ("param2", .int 100)] false
        (testWorld "param1 = \"value1\"\nparam2 = 42\n" ["yes"]) = some o ∧
      o.err = none ∧
      o.world.files = (testWorld "param1 = \"value1\"\nparam2 = 42\n" ["yes"]).files :=
  have hno : ¬ ∃ blanks c rest,
      (testWorld "param1 = \"value1\"\nparam2 = 42\n" ["yes"]).stdin = blanks ++ c :: rest ∧
      (∀ b ∈ blanks, isSpace b = true ∧ b ≠ '\n') ∧ (c = 'y' ∨ c = 'Y') ∧
      (∀ r ∈ rest.head?, isSpace r = true) :=
    fun h => absurd ((answers_yes_iff _).2 h) (by decide)
  ⟨by decide, rfl, hno,
    declined_leaves_file testToml "config" "test.toml"
      [("param1", .str "different_value"), ("param2", .int 100)]
      (testWorld "param1 = \"value1\"\nparam2 = 42\n" ["yes"])
      "param1 = \"value1\"\nparam2 = 42\n" "param1 = 'different_value'\nparam2 = 100\n"
      [("param1", .str "value1"), ("param2", .int 42)]
      [("param1", .str "different_value"), ("param2", .int 100)] ⟨[], [], ["param1", "param2"]⟩
      rfl rfl rfl rfl (by decide) (by decide) hno⟩

/-! ## The driver without drift, and its errors -/

/-- C13: when the two trees give three empty sequences, the call prints
nothing, reads nothing from standard input, writes no file and returns no
error, whatever `autoUpdate` is: the environment is left as it was. -/
theorem no_drift_no_effect {α : Type} (toml : Toml α) (configPath fileName : String)
    (defaultConfig : α) (autoUpdate : Bool) (w : World) (existingContent newContent : String)
    (existingMap newMap : Table)
    (hread : w.files (joinPath configPath fileName) = .ok existingContent)
    (hex : toml.unmarshal existingContent = .ok existingMap)
    (hnew : toml.marshal defaultConfig = .ok newContent)
    (hcan : toml.unmarshal newContent = .ok newMap)
    (hdiff : compareConfigs existingMap newMap = some ⟨[], [], []⟩) :
    CheckAndUpdateFile toml configPath fileName defaultConfig autoUpdate w = some ⟨none, w⟩ := by
  simp [CheckAndUpdateFile, hread, hex, hnew, hcan, hdiff]

theorem no_drift_no_effect_witness :
    compareConfigs [("param1", .str "value1"), ("param2", .str "new_value")]
      [("param1", .str "value1"), ("param2", .str "new_value")] = some ⟨[], [], []⟩ ∧
    CheckAndUpdateFile testToml "config" "test.toml"
      [("param1", .str "value1"), ("param2", .str "new_value")] true
      (testWorld "param1 = 'value1'\nparam2 = 'new_value'\n" ["y"])
      = some ⟨none, testWorld "param1 = 'value1'\nparam2 = 'new_value'\n" ["y"]⟩ :=
  ⟨by decide,
    no_drift_no_effect testToml "config" "test.toml"
      [("param1", .str "value1"), ("param2", .str "new_value")] true
      (testWorld "param1 = 'value1'\nparam2 = 'new_value'\n" ["y"])
      "param1 = 'value1'\nparam2 = 'new_value'\n" "param1 = 'value1'\nparam2 = 'new_value'\n"
      [("param1", .str "value1"), ("param2", .str "new_value")]
      [("param1", .str "value1"), ("param2", .str "new_value")] rfl rfl rfl rfl (by decide)⟩

/-- C14 (counterexample): a default object holding a NaN.  The first call
rewrites the file with the canonical bytes `rate = nan`; the call that follows
reads those bytes back, finds `rate` modified, prints the report and writes
again. -/
theorem second_call_finds_drift :
    (CheckAndUpdateFile rateToml "config" "test.toml" 0x7ff8000000000000 true
        (testWorld "rate = 0.5\n" [])).map (fun o => (o.err, o.world.files "config/test.toml"))
      = some (none, .ok "rate = nan\n") ∧
    compareConfigs [("rate", .float 0x7ff8000000000000)] [("rate", .float 0x7ff8000000000000)]
      = some ⟨[], [], ["rate"]⟩ ∧
    (CheckAndUpdateFile rateToml "config" "test.toml" 0x7ff8000000000000 true
        (testWorld "rate = nan\n" [])).map (fun o => o.world.stdout)
      = some ["Your test.toml file structure is outdated.\n", "Modified parameters:\n",
          "  * rate\n", "test.toml has been updated with the new structure.\n"] :=
  ⟨rfl, by decide, rfl⟩

/-- C14 (amended): when the canonical tree holds no NaN, after a call that left
the file holding the canonical bytes, a following call with the same default
object finds three empty sequences and leaves the environment, the file
included, as it was. -/
theorem second_call_no_drift {α : Type} (toml : Toml α) (configPath fileName : String)
    (defaultConfig : α) (autoUpdate autoUpdate2 : Bool) (w : World) (o1 : Outcome)
    (newContent : String) (newMap : Table)
    (_hcall : CheckAndUpdateFile toml configPath fileName defaultConfig autoUpdate w = some o1)
    (hnew : toml.marshal defaultConfig = .ok newContent)
    (hrewrote : o1.world.files (joinPath configPath fileName) = .ok newContent)
    (hcan : toml.unmarshal newContent = .ok newMap)
    (hwf : wfTree newMap = true) (hnan : (Value.table newMap).nanFree = true) :
    compareConfigs newMap newMap = some ⟨[], [], []⟩ ∧
    CheckAndUpdateFile toml configPath fileName defaultConfig autoUpdate2 o1.world
      = some ⟨none, o1.world⟩ := by
  have hself : compareConfigs newMap newMap = some ⟨[], [], []⟩ :=
    compareConfigs_of_deepEqual (wfTree_distinct hwf) (wfTree_distinct hwf)
      (deepEqual_refl (.table newMap) hwf hnan)
  refine ⟨hself, ?_⟩
  simp [CheckAndUpdateFile, hrewrote, hnew, hcan, hself]

theorem second_call_no_drift_witness :
    ∃ o1, CheckAndUpdateFile testToml "config" "test.toml"
        [("param1", .str "value1"), ("param2", .str "new_value")] true
        (testWorld "param1 = \"value1\"\n" []) = some o1 ∧
      o1.world.files (joinPath "config" "test.toml")
        = .ok "param1 = 'value1'\nparam2 = 'new_value'\n" ∧
      compareConfigs [("param1", .str "value1"), ("param2", .str "new_value")]
        [("param1", .str "value1"), ("param2", .str "new_value")] = some ⟨[], [], []⟩ ∧
      CheckAndUpdateFile testToml "config" "test.toml"
        [("param1", .str "value1"), ("param2", .str "new_value")] false o1.world
        = some ⟨none, o1.world⟩ :=
  ⟨(CheckAndUpdateFile testToml "config" "test.toml"
        [("param1", .str "value1"), ("param2", .str "new_value")] true
        (testWorld "param1 = \"value1\"\n" [])).get rfl,
    (Option.some_get _).symm, rfl,
    second_call_no_drift testToml "config" "test.toml"
      [("param1", .str "value1"), ("param2", .str "new_value")] true false
      (testWorld "param1 = \"value1\"\n" []) _
      "param1 = 'value1'\nparam2 = 'new_value'\n"
      [("param1", .str "value1"), ("param2", .str "new_value")]
      (Option.some_get _).symm rfl rfl rfl (by decide) (by decide)⟩

/-- C15 (counterexample): on the answer `y extra` the read fails with "expected
newline", yet `y` is stored and the decision is to update; on the answer ` y`,
which is not exactly `y`, the decision is to update too. -/
theorem failed_read_accepted :
    (testWorld "param1 = \"value1\"\nparam2 = 42\n" ["y extra"]).stdin = "y extra\n".data ∧
    scanlnString "y extra\n".data = ⟨"y", some "expected newline", "xtra\n".data⟩ ∧
    (shouldUpdate "test.toml" false
      (testWorld "param1 = \"value1\"\nparam2 = 42\n" ["y extra"])).1 = true ∧
    scanlnString " y\n".data = ⟨"y", none, []⟩ ∧
    (shouldUpdate "test.toml" false
      (testWorld "param1 = \"value1\"\nparam2 = 42\n" [" y"])).1 = true :=
  ⟨rfl, by decide, by decide, by decide, by decide⟩

/-- C15 (amended): the decision is to update exactly when `autoUpdate` is set or
the first word of the answer is `y` or `Y` (the characters waiting on standard
input are blanks, then `y` or `Y`, then a blank, a newline or the end of
input); with `autoUpdate` set nothing is read or printed; the end of input, the
empty answer and the answer `yes` give a negative decision; and a call that
loads both trees, computes a diff and gets a negative decision returns no
error. -/
theorem decision_iff {α : Type} (toml : Toml α) (configPath fileName : String)
    (defaultConfig : α) (autoUpdate : Bool) (w : World) :
    ((shouldUpdate fileName autoUpdate w).1 = true ↔
      (autoUpdate = true ∨ ∃ blanks c rest, w.stdin = blanks ++ c :: rest ∧
        (∀ b ∈ blanks, isSpace b = true ∧ b ≠ '\n') ∧ (c = 'y' ∨ c = 'Y') ∧
        (∀ r ∈ rest.head?, isSpace r = true))) ∧
    shouldUpdate fileName true w = (true, w) ∧
    (shouldUpdate fileName false { w with stdin := [] }).1 = false ∧
    (shouldUpdate fileName false { w with stdin := "\n".data }).1 = false ∧
    (shouldUpdate fileName false { w with stdin := "yes\n".data }).1 = false ∧
    ∀ (existingContent newContent : String) (existingMap newMap : Table) (d : Diff),
      w.files (joinPath configPath fileName) = .ok existingContent →
      toml.unmarshal existingContent = .ok existingMap →
      toml.marshal defaultConfig = .ok newContent →
      toml.unmarshal newContent = .ok newMap →
      compareConfigs existingMap newMap = some d →
      (shouldUpdate fileName false w).1 = false →
      ∃ o, CheckAndUpdateFile toml configPath fileName defaultConfig false w = some o ∧
        o.err = none := by
  refine ⟨?_, rfl, ?_, ?_, ?_, ?_⟩
  · cases autoUpdate with
    | true => simp [shouldUpdate]
    | false =>
      rw [decision_false_iff, answers_yes_iff]
      simp
  · rfl
  · rfl
  · rfl
  · intro existingContent newContent existingMap newMap d hread hex hnew hcan hdiff hdec
    obtain ⟨o, ho, herr, _⟩ := declined_outcome toml configPath fileName defaultConfig w
      existingContent newContent existingMap newMap d hread hex hnew hcan hdiff hdec
    exact ⟨o, ho, herr⟩

theorem decision_iff_witness :
    (testWorld "param1 = \"value1\"\nparam2 = 42\n" ["  Y "]).stdin = "  Y \n".data ∧
    ((shouldUpdate "test.toml" false
        (testWorld "param1 = \"value1\"\nparam2 = 42\n" ["  Y "])).1 = true ↔
      (false = true ∨ ∃ blanks c rest,
        (testWorld "param1 = \"value1\"\nparam2 = 42\n" ["  Y "]).stdin
          = blanks ++ c :: rest ∧
        (∀ b ∈ blanks, isSpace b = true ∧ b ≠ '\n') ∧ (c = 'y' ∨ c = 'Y') ∧
        (∀ r ∈ rest.head?, isSpace r = true))) ∧
    (shouldUpdate "test.toml" false
      (testWorld "param1 = \"value1\"\nparam2 = 42\n" ["  Y "])).1 = true ∧
    (shouldUpdate "test.toml" false (testWorld "param1 = \"value1\"\nparam2 = 42\n" ["n"])).1
      = false ∧
    ∃ o, CheckAndUpdateFile testToml "config" "test.toml"
        [("param1", .str "different_value"), ("param2", .int 100)] false
        (testWorld "param1 = \"value1\"\nparam2 = 42\n" ["n"]) = some o ∧ o.err = none :=
  ⟨rfl,
    (decision_iff testToml "config" "test.toml"
      [("param1", .str "different_value"), ("param2", .int 100)] false
      (testWorld "param1 = \"value1\"\nparam2 = 42\n" ["  Y "])).1,
    by decide, by decide,
    (decision_iff testToml "config" "test.toml"
      [("param1", .str "different_value"), ("param2", .int 100)] false
      (testWorld "param1 = \"value1\"\nparam2 = 42\n" ["n"])).2.2.2.2.2
      "param1 = \"value1\"\nparam2 = 42\n" "param1 = 'different_value'\nparam2 = 100\n"
      [("param1", .str "value1"), ("param2", .int 42)]
      [("param1", .str "different_value"), ("param2", .int 100)]
      ⟨[], [], ["param1", "param2"]⟩ rfl rfl rfl rfl (by decide) (by decide)⟩

/-- C16: when the file cannot be read, its bytes cannot be decoded, the default
object cannot be encoded or the canonical bytes cannot be decoded, the call
returns an error whose text holds the file name, and leaves the environment as
it was: nothing is printed, read or written. -/
theorem load_error_names_file {α : Type} (toml : Toml α) (configPath fileName : String)
    (defaultConfig : α) (autoUpdate : Bool) (w : World)
    (hfail : (∃ e, w.files (joinPath configPath fileName) = .error e) ∨
      (∃ b e, w.files (joinPath configPath fileName) = .ok b ∧ toml.unmarshal b = .error e) ∨
      (∃ b m e, w.files (joinPath configPath fileName) = .ok b ∧ toml.unmarshal b = .ok m ∧
        toml.marshal defaultConfig = .error e) ∨
      (∃ b m c e, w.files (joinPath configPath fileName) = .ok b ∧ toml.unmarshal b = .ok m ∧
        toml.marshal defaultConfig = .ok c ∧ toml.unmarshal c = .error e)) :
    ∃ before after, CheckAndUpdateFile toml configPath fileName defaultConfig autoUpdate w
      = some ⟨some (before ++ fileName ++ after), w⟩ := by
  rcases hfail with ⟨e, h1⟩ | ⟨b, e, h1, h2⟩ | ⟨b, m, e, h1, h2, h3⟩ | ⟨b, m, c, e, h1, h2, h3, h4⟩
  · exact ⟨"error reading ", ": " ++ e, by simp [CheckAndUpdateFile, h1, String.append_assoc]⟩
  · exact ⟨"error parsing existing ", ": " ++ e,
      by simp [CheckAndUpdateFile, h1, h2, String.append_assoc]⟩
  · exact ⟨"error generating new ", " content: " ++ e,
      by simp [CheckAndUpdateFile, h1, h2, h3, String.append_assoc]⟩
  · exact ⟨"error parsing new ", ": " ++ e,
      by simp [CheckAndUpdateFile, h1, h2, h3, h4, String.append_assoc]⟩

theorem load_error_names_file_witness :
    (testWorld "param1 = \"value1\"\n" []).files (joinPath "config" "app.toml")
      = .error "no such file or directory" ∧
    ∃ before after, CheckAndUpdateFile testToml "config" "app.toml"
        [("param1", .str "value1"), ("param2", .str "new_value")] true
        (testWorld "param1 = \"value1\"\n" [])
      = some ⟨some (before ++ "app.toml" ++ after), testWorld "param1 = \"value1\"\n" []⟩ :=
  ⟨rfl,
    load_error_names_file testToml "config" "app.toml"
      [("param1", .str "value1"), ("param2", .str "new_value")] true
      (testWorld "param1 = \"value1\"\n" []) (Or.inl ⟨"no such file or directory", rfl⟩)⟩

/-! ## The first loop without accumulators -/

theorem nil_append_diff (d : Diff) : Diff.append ⟨[], [], []⟩ d = d := by
  cases d; simp [Diff.append]

theorem append_assoc_diff (a b c : Diff) : (a.append b).append c = a.append (b.append c) := by
  simp [Diff.append, List.append_assoc]

theorem part_append (a b : Diff) (s : Part) : (a.append b).part s = a.part s ++ b.part s := by
  cases s <;> rfl

theorem part_swap (d : Diff) (s : Part) : d.swap.part s = d.part s.swap := by
  cases s <;> rfl

theorem diff_ext_part {d1 d2 : Diff} (h : ∀ s, d1.part s = d2.part s) : d1 = d2 := by
  cases d1; cases d2
  have h1 := h .added
  have h2 := h .removed
  have h3 := h .modified
  simp only [Diff.part] at h1 h2 h3
  simp [h1, h2, h3]

theorem compareEntry_acc (existing : Table) (key : String) (nv : Value) (acc : Diff) :
    compareEntry existing key nv acc
      = (compareEntry existing key nv ⟨[], [], []⟩).map (fun d => acc.append d) := by
  cases hl : existing.lookup key with
  | none =>
    rw [compareEntry_absent nv acc hl, compareEntry_absent nv _ hl]
    simp [Diff.append]
  | some ev =>
    cases he : deepEqual ev nv with
    | true =>
      rw [compareEntry_equal acc hl he, compareEntry_equal _ hl he]
      cases acc; simp [Diff.append]
    | false =>
      cases ht : ev.isTable with
      | false =>
        rw [compareEntry_scalar acc hl he ht, compareEntry_scalar _ hl he ht]
        simp [Diff.append]
      | true =>
        obtain ⟨ex, rfl⟩ : ∃ ex, ev = .table ex := by
          cases ev <;> simp_all [Value.isTable]
        cases hn : nv.isTable with
        | false =>
          rw [compareEntry_panics acc hl hn, compareEntry_panics _ hl hn]
          rfl
        | true =>
          obtain ⟨nw, rfl⟩ : ∃ nw, nv = .table nw := by
            cases nv <;> simp_all [Value.isTable]
          rw [compareEntry_tables acc hl he, compareEntry_tables _ hl he, Option.map_map]
          congr 1

theorem compareLoop_eq_collect (existing : Table) :
    ∀ (l : Table) (acc : Diff),
      compareLoop existing l acc = (collect existing l).map (fun r => acc.append r)
  | [], acc => by
    rw [compareLoop, collect]
    cases acc; simp [Diff.append]
  | (key, nv) :: rest, acc => by
    rw [compareLoop_cons, collect, compareEntry_acc]
    cases compareEntry existing key nv ⟨[], [], []⟩ with
    | none => rfl
    | some d =>
      simp only [Option.map_some', Option.some_bind, compareLoop_eq_collect existing rest,
        Option.map_map]
      congr 1
      funext r
      exact append_assoc_diff acc d r

theorem compareConfigs_eq_collect (existing new : Table) :
    compareConfigs existing new = (collect existing new).map (finish existing new) := by
  unfold compareConfigs
  rw [compareLoop_eq_collect, Option.map_map]
  congr 1

theorem collect_none_iff {existing : Table} :
    ∀ {l : Table}, collect existing l = none ↔
      ∃ en ∈ l, compareEntry existing en.1 en.2 ⟨[], [], []⟩ = none
  | [] => by simp [collect]
  | (key, nv) :: rest => by
    rw [collect]
    cases h : compareEntry existing key nv ⟨[], [], []⟩ with
    | none => simp [h]
    | some d =>
      simp only [Option.some_bind, Option.map_eq_none', collect_none_iff (l := rest),
        List.mem_cons]
      constructor
      · rintro ⟨en, hm, hn⟩
        exact ⟨en, Or.inr hm, hn⟩
      · rintro ⟨en, hm | hm, hn⟩
        · subst hm
          rw [h] at hn
          cases hn
        · exact ⟨en, hm, hn⟩

theorem collect_count {existing : Table} (s : Part) (p : String) :
    ∀ {l : Table} {r : Diff}, collect existing l = some r →
      (r.part s).count p
        = (l.map (fun en =>
            (((compareEntry existing en.1 en.2 ⟨[], [], []⟩).getD ⟨[], [], []⟩).part s).count
              p)).sum
  | [], r, h => by
    rw [collect] at h
    cases h
    cases s <;> simp [Diff.part]
  | (key, nv) :: rest, r, h => by
    rw [collect] at h
    obtain ⟨d, hd, h2⟩ := Option.bind_eq_some.1 h
    obtain ⟨r2, hr2, rfl⟩ := Option.map_eq_some'.1 h2
    rw [part_append, List.count_append, List.map_cons, List.sum_cons, collect_count s p hr2, hd]
    rfl

theorem removedLoop_eq (new : Table) :
    ∀ (l : Table) (acc : List String),
      removedLoop new l acc
        = acc ++ (l.map Prod.fst).filter (fun k => (new.lookup k).isNone)
  | [], acc => by simp [removedLoop]
  | (key, v) :: rest, acc => by
    rw [removedLoop]
    cases hl : new.lookup key with
    | none => simp [removedLoop_eq new rest, hl]
    | some w => simp [removedLoop_eq new rest, hl]

/-! ## Counting the reports key by key -/

theorem sum_over_keys {l : List String} (hl : l.Nodup) {K : Finset String}
    (hK : l.toFinset ⊆ K) (f : String → Nat) (h0 : ∀ k ∈ K, k ∉ l → f k = 0) :
    (l.map f).sum = ∑ k in K, f k := by
  rw [← List.sum_toFinset f hl]
  apply Finset.sum_subset hK
  intro k hk hnk
  exact h0 k hk (by simpa using hnk)

theorem keys_subset_keySet_left (a b : Table) : (a.map Prod.fst).toFinset ⊆ keySet a b :=
  Finset.subset_union_left

theorem keys_subset_keySet_right (a b : Table) : (b.map Prod.fst).toFinset ⊆ keySet a b :=
  Finset.subset_union_right

theorem nodup_of_distinctKeys {t : Table} (h : distinctKeys t = true) :
    (t.map Prod.fst).Nodup := by
  simpa [distinctKeys] using h

theorem count_filter_keys (p : String) (P : String → Bool) :
    ∀ l : List String, (l.filter P).count p
      = (l.map (fun k => (if P k then [k] else []).count p)).sum
  | [] => by simp
  | k :: rest => by
    rw [List.filter_cons, List.map_cons, List.sum_cons, ← count_filter_keys p P rest]
    cases hP : P k <;> simp [hP, List.count_cons]
    omega

theorem collect_count_keys {a b : Table} {raw : Diff} (hb : distinctKeys b = true)
    (h : collect a b = some raw) (s : Part) (p : String) :
    (raw.part s).count p = ∑ k in keySet a b, ((newPart a b k).part s).count p := by
  rw [collect_count s p h]
  have hmap : b.map (fun en =>
      (((compareEntry a en.1 en.2 ⟨[], [], []⟩).getD ⟨[], [], []⟩).part s).count p)
      = (b.map Prod.fst).map (fun k => ((newPart a b k).part s).count p) := by
    rw [List.map_map]
    apply List.map_congr_left
    rintro ⟨k, nv⟩ hm
    simp only [Function.comp, newPart, lookup_of_mem hb hm]
  rw [hmap]
  apply sum_over_keys (nodup_of_distinctKeys hb) (keys_subset_keySet_right a b)
  intro k _ hk
  have : b.lookup k = none := lookup_none_iff.2 hk
  cases s <;> simp [newPart, this, Diff.part]

theorem removed_count_keys {a b : Table} (ha : distinctKeys a = true) (p : String) :
    ((a.map Prod.fst).filter (fun k => (b.lookup k).isNone)).count p
      = ∑ k in keySet a b, (oldPart a b k).count p := by
  rw [count_filter_keys]
  have hmap : (a.map Prod.fst).map
      (fun k => (if (b.lookup k).isNone then [k] else []).count p)
      = (a.map Prod.fst).map (fun k => (oldPart a b k).count p) := by
    apply List.map_congr_left
    intro k hk
    obtain ⟨v, hv⟩ := lookup_isSome_of_key hk
    simp only [oldPart]
    rw [hv, Option.isSome_some, Bool.true_and]
  rw [hmap]
  apply sum_over_keys (nodup_of_distinctKeys ha) (keys_subset_keySet_left a b)
  intro k _ hk
  have : a.lookup k = none := lookup_none_iff.2 hk
  simp [oldPart, this]

theorem keyDiff_parts {a b : Table} {k : String} {d : Diff} (h : keyDiff a b k = some d)
    (s : Part) :
    d.part s = (newPart a b k).part s ++ (if s = .removed then oldPart a b k else []) := by
  unfold keyDiff at h
  cases hb : b.lookup k with
  | some nv =>
    rw [hb] at h
    simp only at h
    cases s <;> simp [newPart, oldPart, hb, h]
  | none =>
    rw [hb] at h
    simp only at h
    cases ha : a.lookup k with
    | some v =>
      rw [ha] at h
      cases h
      cases s <;> simp [newPart, oldPart, hb, ha, Diff.part]
    | none =>
      rw [ha] at h
      cases h
      cases s <;> simp [newPart, oldPart, hb, ha, Diff.part]

theorem keyDiff_none_iff {a b : Table} {k : String} :
    keyDiff a b k = none ↔
      ∃ nv, b.lookup k = some nv ∧ compareEntry a k nv ⟨[], [], []⟩ = none := by
  unfold keyDiff
  cases hb : b.lookup k with
  | some nv => simp
  | none => cases ha : a.lookup k <;> simp

/-- The run panics exactly when the iteration of some key panics. -/
theorem compareConfigs_none_iff {a b : Table} (hb : distinctKeys b = true) :
    compareConfigs a b = none ↔ ∃ k, keyDiff a b k = none := by
  rw [compareConfigs_eq_collect, Option.map_eq_none', collect_none_iff]
  constructor
  · rintro ⟨⟨k, nv⟩, hm, hn⟩
    exact ⟨k, keyDiff_none_iff.2 ⟨nv, lookup_of_mem hb hm, hn⟩⟩
  · rintro ⟨k, hk⟩
    obtain ⟨nv, hl, hn⟩ := keyDiff_none_iff.1 hk
    exact ⟨(k, nv), mem_of_lookup hl, hn⟩

/-- Each path occurs in a result sequence as often as the keys report it. -/
theorem compareConfigs_count {a b : Table} {d : Diff} (ha : distinctKeys a = true)
    (hb : distinctKeys b = true) (h : compareConfigs a b = some d) (s : Part) (p : String) :
    (d.part s).count p
      = ∑ k in keySet a b, (((keyDiff a b k).getD ⟨[], [], []⟩).part s).count p := by
  have hsome : ∀ k, ∃ dk, keyDiff a b k = some dk := by
    intro k
    cases hk : keyDiff a b k with
    | some dk => exact ⟨dk, rfl⟩
    | none =>
      have := (compareConfigs_none_iff hb).2 ⟨k, hk⟩
      rw [h] at this
      cases this
  rw [compareConfigs_eq_collect] at h
  obtain ⟨raw, hraw, rfl⟩ := Option.map_eq_some'.1 h
  have hkey : ∀ k, (((keyDiff a b k).getD ⟨[], [], []⟩).part s).count p
      = ((newPart a b k).part s).count p
        + (if s = .removed then (oldPart a b k).count p else 0) := by
    intro k
    obtain ⟨dk, hdk⟩ := hsome k
    rw [hdk, Option.getD_some, keyDiff_parts hdk s, List.count_append]
    cases s <;> simp
  simp only [hkey, Finset.sum_add_distrib]
  cases s with
  | added =>
    simp only [Diff.part, finish, (sortStrings_perm _).count_eq]
    have := collect_count_keys hb hraw .added p
    simp only [Diff.part] at this
    simp [this]
  | modified =>
    simp only [Diff.part, finish, (sortStrings_perm _).count_eq]
    have := collect_count_keys hb hraw .modified p
    simp only [Diff.part] at this
    simp [this]
  | removed =>
    simp only [Diff.part, finish, (sortStrings_perm _).count_eq, removedLoop_eq,
      List.count_append]
    have := collect_count_keys hb hraw .removed p
    simp only [Diff.part] at this
    simp [this, removed_count_keys ha p]

/-! ## Two runs whose keys report alike -/

theorem sorted_part {a b : Table} {d : Diff} (h : compareConfigs a b = some d) (s : Part) :
    (d.part s).Sorted (· ≤ ·) := by
  obtain ⟨h1, h2, h3⟩ := sorted_of_compareConfigs h
  cases s
  · exact h1
  · exact h2
  · exact h3

theorem eq_of_count_of_sorted {l1 l2 : List String} (h1 : l1.Sorted (· ≤ ·))
    (h2 : l2.Sorted (· ≤ ·)) (h : ∀ p, l1.count p = l2.count p) : l1 = l2 :=
  List.eq_of_perm_of_sorted (List.perm_iff_count.2 h) h1 h2

/-- When every key reports in one run what it reports in the other, up to a
renaming of the three sequences, the two runs return the same up to that
renaming. -/
theorem compareConfigs_transfer {a b a2 b2 : Table} (f : Diff → Diff) (g : Part → Part)
    (hf : ∀ d s, (f d).part s = d.part (g s))
    (ha : distinctKeys a = true) (hb : distinctKeys b = true)
    (ha2 : distinctKeys a2 = true) (hb2 : distinctKeys b2 = true)
    (hK : keySet a b = keySet a2 b2)
    (hkey : ∀ k, keyDiff a b k = (keyDiff a2 b2 k).map f) :
    compareConfigs a b = (compareConfigs a2 b2).map f := by
  cases h2 : compareConfigs a2 b2 with
  | none =>
    obtain ⟨k, hk⟩ := (compareConfigs_none_iff hb2).1 h2
    exact (compareConfigs_none_iff hb).2 ⟨k, by rw [hkey k, hk]; rfl⟩
  | some d2 =>
    cases h1 : compareConfigs a b with
    | none =>
      obtain ⟨k, hk⟩ := (compareConfigs_none_iff hb).1 h1
      rw [hkey k, Option.map_eq_none'] at hk
      have := (compareConfigs_none_iff hb2).2 ⟨k, hk⟩
      rw [h2] at this
      cases this
    | some d =>
      rw [Option.map_some']
      congr 1
      apply diff_ext_part
      intro s
      rw [hf]
      apply eq_of_count_of_sorted (sorted_part h1 s) (sorted_part h2 (g s))
      intro p
      rw [compareConfigs_count ha hb h1, compareConfigs_count ha2 hb2 h2, hK]
      apply Finset.sum_congr rfl
      intro k _
      rw [hkey k]
      cases hk : keyDiff a2 b2 k with
      | none =>
        have := (compareConfigs_none_iff hb2).2 ⟨k, hk⟩
        rw [h2] at this
        cases this
      | some dk => simp [hf]

/-! ## Symmetry of `reflect.DeepEqual` -/

theorem f64Eq_comm (a b : Nat) : f64Eq a b = f64Eq b a := by
  unfold f64Eq
  cases f64IsNaN a <;> cases f64IsNaN b <;> simp only [Bool.not_true, Bool.not_false,
    Bool.and_self, Bool.false_and, Bool.and_false, Bool.true_and]
  rw [Bool.eq_iff_iff]
  simp only [Bool.or_eq_true, Bool.and_eq_true, beq_iff_eq]
  constructor
  · rintro (h | ⟨h1, h2⟩)
    · exact Or.inl h.symm
    · exact Or.inr ⟨h2, h1⟩
  · rintro (h | ⟨h1, h2⟩)
    · exact Or.inl h.symm
    · exact Or.inr ⟨h2, h1⟩

theorem deepEqual_table_iff {e c : Table} :
    deepEqual (.table e) (.table c) = true ↔
      e.length = c.length ∧
        ∀ k v, (k, v) ∈ e → ∃ v2, c.lookup k = some v2 ∧ deepEqual v v2 = true := by
  rw [deepEqual, Bool.and_eq_true, deepEqualMap_iff]
  simp

theorem deepEqual_table_flip {e c : Table} (hde : distinctKeys e = true)
    (hdc : distinctKeys c = true)
    (hsym : ∀ k v w, (k, v) ∈ e → (k, w) ∈ c → deepEqual v w = deepEqual w v)
    (h : deepEqual (.table e) (.table c) = true) :
    deepEqual (.table c) (.table e) = true := by
  have hperm := keys_perm_of_deepEqual hde h
  obtain ⟨hlen, hall⟩ := deepEqual_table_iff.1 h
  refine deepEqual_table_iff.2 ⟨hlen.symm, ?_⟩
  intro k w hm
  have hk : k ∈ e.map Prod.fst := hperm.mem_iff.2 (List.mem_map_of_mem Prod.fst hm)
  obtain ⟨v, hv⟩ := key_of_mem_keys hk
  obtain ⟨v2, hl, he⟩ := hall k v hv
  have : v2 = w := by
    have := lookup_of_mem hdc hm
    rw [hl] at this
    exact Option.some.inj this
  subst this
  exact ⟨v, lookup_of_mem hde hv, by rw [← hsym k v v2 hv hm]; exact he⟩

mutual
theorem deepEqual_symm : ∀ v w : Value, v.allTables distinctKeys = true →
    w.allTables distinctKeys = true → deepEqual v w = deepEqual w v
  | .str a, w, _, _ => by cases w <;> simp [deepEqual, eq_comm]
  | .int a, w, _, _ => by cases w <;> simp [deepEqual, eq_comm]
  | .float a, w, _, _ => by cases w <;> simp [deepEqual, f64Eq_comm]
  | .bool a, w, _, _ => by cases w <;> simp [deepEqual, eq_comm]
  | .time a, w, _, _ => by cases w <;> simp [deepEqual, eq_comm]
  | .list xs, w, hv, hw => by
    cases w with
    | list ys =>
      rw [deepEqual, deepEqual]
      exact deepEqualList_symm xs ys (by simpa [Value.allTables] using hv)
        (by simpa [Value.allTables] using hw)
    | _ => simp [deepEqual]
  | .table e, w, hv, hw => by
    cases w with
    | table c =>
      have hv2 := allTables_table.1 hv
      have hw2 := allTables_table.1 hw
      have hsym : ∀ k v w, (k, v) ∈ e → (k, w) ∈ c → deepEqual v w = deepEqual w v :=
        fun k v w hm hc =>
          deepEqualEntries_symm e hv2.2 k v hm w (allTablesEntries_mem hw2.2 hc)
      rw [Bool.eq_iff_iff]
      exact ⟨deepEqual_table_flip hv2.1 hw2.1 hsym,
        deepEqual_table_flip hw2.1 hv2.1 (fun k w v hc hm => (hsym k v w hm hc).symm)⟩
    | _ => simp [deepEqual]
theorem deepEqualList_symm : ∀ xs ys : List Value, allTablesList distinctKeys xs = true →
    allTablesList distinctKeys ys = true → deepEqualList xs ys = deepEqualList ys xs
  | [], ys, _, _ => by cases ys <;> simp [deepEqualList]
  | x :: xs, ys, hx, hy => by
    cases ys with
    | nil => simp [deepEqualList]
    | cons y ys =>
      rw [allTablesList, Bool.and_eq_true] at hx hy
      rw [deepEqualList, deepEqualList, deepEqual_symm x y hx.1 hy.1,
        deepEqualList_symm xs ys hx.2 hy.2]
theorem deepEqualEntries_symm : ∀ kvs : List (String × Value),
    allTablesEntries distinctKeys kvs = true →
    ∀ k v, (k, v) ∈ kvs → ∀ w : Value, w.allTables distinctKeys = true →
      deepEqual v w = deepEqual w v
  | [], _ => by simp
  | (k2, v2) :: rest, hw => by
    rw [allTablesEntries, Bool.and_eq_true] at hw
    intro k v hm w hww
    rcases List.mem_cons.1 hm with hm | hm
    · cases hm
      exact deepEqual_symm v2 w hw.1 hww
    · exact deepEqualEntries_symm rest hw.2 k v hm w hww
end

/-! ## Exchanging the two trees -/

theorem kindsAgreeEntries_mem {b : Table} {k : String} {v w : Value} :
    ∀ {l : Table}, kindsAgreeEntries l b = true → (k, v) ∈ l → b.lookup k = some w →
      kindsAgreeValue v w = true
  | [], _, hm, _ => by simp at hm
  | (k2, v2) :: rest, h, hm, hl => by
    rw [kindsAgreeEntries, Bool.and_eq_true] at h
    rcases List.mem_cons.1 hm with hm | hm
    · cases hm
      have h1 := h.1
      rw [hl] at h1
      exact h1
    · exact kindsAgreeEntries_mem h.2 hm hl

theorem kindsAgreeValue_tables {ta tb : Table} :
    kindsAgreeValue (.table ta) (.table tb) = kindsAgreeEntries ta tb := by
  rw [kindsAgreeValue]

theorem kindsAgreeValue_isTable {v w : Value} (h : kindsAgreeValue v w = true) :
    v.isTable = w.isTable := by
  cases v <;> cases w <;> simp_all [kindsAgreeValue, Value.isTable]

theorem keySet_comm (a b : Table) : keySet a b = keySet b a := by
  unfold keySet
  exact Finset.union_comm _ _

theorem merge_swap (k : String) (d : Diff) :
    (Diff.merge ⟨[], [], []⟩ k d).swap = Diff.merge ⟨[], [], []⟩ k d.swap := rfl

theorem wf_of_lookup {t : Table} {k : String} {v : Value} (h : wfTree t = true)
    (hl : t.lookup k = some v) : v.allTables distinctKeys = true :=
  allTablesEntries_mem (allTables_table.1 h).2 (mem_of_lookup hl)

/-- For trees whose shared key paths agree in kind, the run completes, and the
run with the trees exchanged returns the same with `added` and `removed`
exchanged. -/
theorem compareConfigs_swap : ∀ (n : Nat) (a b : Table), sizeOf b ≤ n →
    wfTree a = true → wfTree b = true → kindsAgree a b = true →
    (∃ d, compareConfigs a b = some d) ∧
      compareConfigs b a = (compareConfigs a b).map Diff.swap
  | 0, a, b, hn, _, _, _ => by
    cases b with
    | nil => simp at hn
    | cons e rest => simp at hn
  | n + 1, a, b, hn, hwa, hwb, hk => by
    have hda := wfTree_distinct hwa
    have hdb := wfTree_distinct hwb
    -- what the key `k` reports when both trees bind it
    have both : ∀ k av bv, a.lookup k = some av → b.lookup k = some bv →
        (∃ d, compareEntry a k bv ⟨[], [], []⟩ = some d) ∧
        compareEntry b k av ⟨[], [], []⟩
          = (compareEntry a k bv ⟨[], [], []⟩).map Diff.swap := by
      intro k av bv hla hlb
      have hka : kindsAgreeValue av bv = true :=
        kindsAgreeEntries_mem hk (mem_of_lookup hla) hlb
      have hsym : deepEqual bv av = deepEqual av bv :=
        deepEqual_symm bv av (wf_of_lookup hwb hlb) (wf_of_lookup hwa hla)
      cases he : deepEqual av bv with
      | true =>
        rw [compareEntry_equal _ hla he, compareEntry_equal _ hlb (hsym.trans he)]
        exact ⟨⟨_, rfl⟩, rfl⟩
      | false =>
        cases ht : av.isTable with
        | false =>
          have ht2 : bv.isTable = false := by rw [← kindsAgreeValue_isTable hka]; exact ht
          rw [compareEntry_scalar _ hla he ht, compareEntry_scalar _ hlb (hsym.trans he) ht2]
          exact ⟨⟨_, rfl⟩, rfl⟩
        | true =>
          have ht2 : bv.isTable = true := by rw [← kindsAgreeValue_isTable hka]; exact ht
          obtain ⟨ax, rfl⟩ : ∃ ax, av = .table ax := by
            cases av <;> simp_all [Value.isTable]
          obtain ⟨bx, rfl⟩ : ∃ bx, bv = .table bx := by
            cases bv <;> simp_all [Value.isTable]
          have hmb := mem_of_lookup hlb
          have hlt := sizeOf_sub hmb
          obtain ⟨⟨d, hd⟩, hsw⟩ := compareConfigs_swap n ax bx (by omega)
            (wfTree_sub hwa (mem_of_lookup hla)) (wfTree_sub hwb hmb)
            (by unfold kindsAgree; rw [← kindsAgreeValue_tables]; exact hka)
          rw [compareEntry_tables _ hla he, compareEntry_tables _ hlb (hsym.trans he), hsw, hd]
          exact ⟨⟨_, rfl⟩, rfl⟩
    have hkey : ∀ k, (∃ d, keyDiff a b k = some d) ∧
        keyDiff b a k = (keyDiff a b k).map Diff.swap := by
      intro k
      unfold keyDiff
      cases hla : a.lookup k with
      | none =>
        cases hlb : b.lookup k with
        | none => exact ⟨⟨_, rfl⟩, rfl⟩
        | some bv =>
          simp only
          rw [compareEntry_absent bv _ hla]
          exact ⟨⟨_, rfl⟩, rfl⟩
      | some av =>
        cases hlb : b.lookup k with
        | none =>
          simp only
          rw [compareEntry_absent av _ hlb]
          exact ⟨⟨_, rfl⟩, rfl⟩
        | some bv => exact both k av bv hla hlb
    have hsome : ∃ d, compareConfigs a b = some d := by
      cases hc : compareConfigs a b with
      | some d => exact ⟨d, rfl⟩
      | none =>
        obtain ⟨k, hk0⟩ := (compareConfigs_none_iff hdb).1 hc
        obtain ⟨d, hd⟩ := (hkey k).1
        rw [hd] at hk0
        cases hk0
    exact ⟨hsome, compareConfigs_transfer Diff.swap Part.swap part_swap hdb hda hda hdb
      (keySet_comm b a) (fun k => (hkey k).2)⟩

/-- C20: for trees `a` and `b` in which no key path present in both holds a
nested table on one side and a value that is not a table on the other,
`compareConfigs(a, b)` completes, and `compareConfigs(b, a)` returns its `added`
as `removed`, its `removed` as `added`, and the same `modified`. -/
theorem swap_duality (a b : Table) (hwa : wfTree a = true) (hwb : wfTree b = true)
    (hk : kindsAgree a b = true) :
    ∃ d, compareConfigs a b = some d ∧
      compareConfigs b a = some ⟨d.removed, d.added, d.modified⟩ := by
  obtain ⟨⟨d, hd⟩, hsw⟩ := compareConfigs_swap (sizeOf b) a b (Nat.le_refl _) hwa hwb hk
  exact ⟨d, hd, by rw [hsw, hd]; rfl⟩

theorem swap_duality_witness :
    wfTree [("a", .table [("x", .int 1), ("y", .int 2)]), ("gone", .int 1), ("n", .int 2)]
      = true ∧
    wfTree [("n", .int 3), ("a", .table [("y", .int 3), ("z", .int 1)]), ("fresh", .int 0)]
      = true ∧
    kindsAgree [("a", .table [("x", .int 1), ("y", .int 2)]), ("gone", .int 1), ("n", .int 2)]
      [("n", .int 3), ("a", .table [("y", .int 3), ("z", .int 1)]), ("fresh", .int 0)] = true ∧
    compareConfigs
      [("a", .table [("x", .int 1), ("y", .int 2)]), ("gone", .int 1), ("n", .int 2)]
      [("n", .int 3), ("a", .table [("y", .int 3), ("z", .int 1)]), ("fresh", .int 0)]
      = some ⟨["a.z", "fresh"], ["a.x", "gone"], ["a.y", "n"]⟩ ∧
    compareConfigs
      [("n", .int 3), ("a", .table [("y", .int 3), ("z", .int 1)]), ("fresh", .int 0)]
      [("a", .table [("x", .int 1), ("y", .int 2)]), ("gone", .int 1), ("n", .int 2)]
      = some ⟨["a.x", "gone"], ["a.z", "fresh"], ["a.y", "n"]⟩ ∧
    ∃ d, compareConfigs
        [("a", .table [("x", .int 1), ("y", .int 2)]), ("gone", .int 1), ("n", .int 2)]
        [("n", .int 3), ("a", .table [("y", .int 3), ("z", .int 1)]), ("fresh", .int 0)]
        = some d ∧
      compareConfigs
        [("n", .int 3), ("a", .table [("y", .int 3), ("z", .int 1)]), ("fresh", .int 0)]
        [("a", .table [("x", .int 1), ("y", .int 2)]), ("gone", .int 1), ("n", .int 2)]
        = some ⟨d.removed, d.added, d.modified⟩ :=
  ⟨by decide, by decide, by decide, by decide, by decide,
    swap_duality
      [("a", .table [("x", .int 1), ("y", .int 2)]), ("gone", .int 1), ("n", .int 2)]
      [("n", .int 3), ("a", .table [("y", .int 3), ("z", .int 1)]), ("fresh", .int 0)]
      (by decide) (by decide) (by decide)⟩

/-! ## The same tree in another iteration order -/

theorem sameMap_iff {c : Table} :
    ∀ {l : Table}, sameMap l c = true ↔
      ∀ k v, (k, v) ∈ l → ∃ v2, c.lookup k = some v2 ∧ sameValue v v2 = true
  | [] => by simp [sameMap]
  | (k, v) :: rest => by
    rw [sameMap, Bool.and_eq_true, sameMap_iff (l := rest)]
    constructor
    · rintro ⟨h1, h2⟩ k2 v2 hm
      rcases List.mem_cons.1 hm with hm | hm
      · cases hm
        cases hl : c.lookup k with
        | none => rw [hl] at h1; cases h1
        | some w => rw [hl] at h1; exact ⟨w, rfl, h1⟩
      · exact h2 k2 v2 hm
    · intro h
      refine ⟨?_, fun k2 v2 hm => h k2 v2 (List.mem_cons_of_mem _ hm)⟩
      obtain ⟨w, hw, he⟩ := h k v (List.mem_cons_self _ _)
      rw [hw]
      exact he

theorem sameTree_iff {e c : Table} :
    sameTree e c = true ↔
      e.length = c.length ∧
        ∀ k v, (k, v) ∈ e → ∃ v2, c.lookup k = some v2 ∧ sameValue v v2 = true := by
  rw [sameTree, sameValue, Bool.and_eq_true, sameMap_iff]
  simp

theorem keys_perm_of_sameTree {e c : Table} (hde : distinctKeys e = true)
    (h : sameTree e c = true) : (e.map Prod.fst).Perm (c.map Prod.fst) := by
  obtain ⟨hlen, hall⟩ := sameTree_iff.1 h
  have hsub : e.map Prod.fst ⊆ c.map Prod.fst := by
    intro k hk
    obtain ⟨v, hv⟩ := key_of_mem_keys hk
    obtain ⟨v2, hl, _⟩ := hall k v hv
    exact List.mem_map_of_mem Prod.fst (mem_of_lookup hl)
  exact (List.subperm_of_subset (nodup_of_distinctKeys hde) hsub).perm_of_length_le
    (by simp [hlen])

/-- The entries of two orderings of one tree correspond key by key. -/
theorem entries_of_sameTree {e c : Table} (hde : distinctKeys e = true)
    (hdc : distinctKeys c = true) (h : sameTree e c = true) :
    (∀ k v, (k, v) ∈ e → ∃ v2, (k, v2) ∈ c ∧ sameValue v v2 = true) ∧
    (∀ k v2, (k, v2) ∈ c → ∃ v, (k, v) ∈ e ∧ sameValue v v2 = true) := by
  obtain ⟨_, hall⟩ := sameTree_iff.1 h
  have hperm := keys_perm_of_sameTree hde h
  constructor
  · intro k v hm
    obtain ⟨v2, hl, hs⟩ := hall k v hm
    exact ⟨v2, mem_of_lookup hl, hs⟩
  · intro k v2 hm
    have hk : k ∈ e.map Prod.fst := hperm.mem_iff.2 (List.mem_map_of_mem Prod.fst hm)
    obtain ⟨v, hv⟩ := key_of_mem_keys hk
    obtain ⟨w, hl, hs⟩ := hall k v hv
    have : w = v2 := by
      have := lookup_of_mem hdc hm
      rw [hl] at this
      exact Option.some.inj this
    subst this
    exact ⟨v, hv, hs⟩

theorem lookup_of_sameTree {e c : Table} (hde : distinctKeys e = true)
    (hdc : distinctKeys c = true) (h : sameTree e c = true) (k : String) :
    (e.lookup k = none ∧ c.lookup k = none) ∨
      ∃ v v2, e.lookup k = some v ∧ c.lookup k = some v2 ∧ sameValue v v2 = true := by
  cases hl : e.lookup k with
  | none =>
    refine Or.inl ⟨rfl, ?_⟩
    rw [lookup_none_iff] at hl ⊢
    exact fun hk => hl ((keys_perm_of_sameTree hde h).mem_iff.2 hk)
  | some v =>
    obtain ⟨v2, hm, hs⟩ := (entries_of_sameTree hde hdc h).1 k v (mem_of_lookup hl)
    exact Or.inr ⟨v, v2, rfl, lookup_of_mem hdc hm, hs⟩

theorem keySet_of_sameTree {e c e2 c2 : Table} (hde : distinctKeys e = true)
    (hdc : distinctKeys c = true) (he : sameTree e e2 = true) (hc : sameTree c c2 = true) :
    keySet e c = keySet e2 c2 := by
  unfold keySet
  rw [List.toFinset_eq_of_perm _ _ (keys_perm_of_sameTree hde he),
    List.toFinset_eq_of_perm _ _ (keys_perm_of_sameTree hdc hc)]

theorem sameValue_isTable {v w : Value} (h : sameValue v w = true) :
    v.isTable = w.isTable := by
  cases v <;> cases w <;> simp_all [sameValue, Value.isTable]

theorem deepEqual_table_transport {e c e2 c2 : Table} (R : Value → Value → Prop)
    (hdc2 : distinctKeys c2 = true)
    (hlen_e : e.length = e2.length) (hlen_c : c.length = c2.length)
    (back_e : ∀ k v2, (k, v2) ∈ e2 → ∃ v, (k, v) ∈ e ∧ R v v2)
    (fwd_c : ∀ k w, (k, w) ∈ c → ∃ w2, (k, w2) ∈ c2 ∧ R w w2)
    (hinv : ∀ k v v2 w w2, (k, v) ∈ e → (k, v2) ∈ e2 → (k, w) ∈ c → (k, w2) ∈ c2 →
      R v v2 → R w w2 → deepEqual v w = true → deepEqual v2 w2 = true)
    (h : deepEqual (.table e) (.table c) = true) :
    deepEqual (.table e2) (.table c2) = true := by
  obtain ⟨hlen, hall⟩ := deepEqual_table_iff.1 h
  refine deepEqual_table_iff.2 ⟨by omega, ?_⟩
  intro k v2 hm2
  obtain ⟨v, hm, hr⟩ := back_e k v2 hm2
  obtain ⟨w, hl, he⟩ := hall k v hm
  have hmc := mem_of_lookup hl
  obtain ⟨w2, hmc2, hrw⟩ := fwd_c k w hmc
  exact ⟨w2, lookup_of_mem hdc2 hmc2, hinv k v v2 w w2 hm hm2 hmc hmc2 hr hrw he⟩

theorem sameTree_length {e c : Table} (h : sameTree e c = true) : e.length = c.length :=
  (sameTree_iff.1 h).1

mutual
theorem deepEqual_same : ∀ v v2 w w2 : Value, v.allTables distinctKeys = true →
    v2.allTables distinctKeys = true → w.allTables distinctKeys = true →
    w2.allTables distinctKeys = true → sameValue v v2 = true → sameValue w w2 = true →
    deepEqual v w = deepEqual v2 w2
  | .str a, v2, w, w2, _, _, _, _, hv, hw => by
    cases v2 <;> simp [sameValue] at hv
    subst hv
    cases w <;> cases w2 <;> simp_all [sameValue, deepEqual]
  | .int a, v2, w, w2, _, _, _, _, hv, hw => by
    cases v2 <;> simp [sameValue] at hv
    subst hv
    cases w <;> cases w2 <;> simp_all [sameValue, deepEqual]
  | .float a, v2, w, w2, _, _, _, _, hv, hw => by
    cases v2 <;> simp [sameValue] at hv
    subst hv
    cases w <;> cases w2 <;> simp_all [sameValue, deepEqual]
  | .bool a, v2, w, w2, _, _, _, _, hv, hw => by
    cases v2 <;> simp [sameValue] at hv
    subst hv
    cases w <;> cases w2 <;> simp_all [sameValue, deepEqual]
  | .time a, v2, w, w2, _, _, _, _, hv, hw => by
    cases v2 <;> simp [sameValue] at hv
    subst hv
    cases w <;> cases w2 <;> simp_all [sameValue, deepEqual]
  | .list xs, v2, w, w2, h1, h2, h3, h4, hv, hw => by
    cases v2 with
    | list xs2 =>
      cases w with
      | list ys =>
        cases w2 with
        | list ys2 =>
          rw [deepEqual, deepEqual]
          exact deepEqualList_same xs xs2 ys ys2 (by simpa [Value.allTables] using h1)
            (by simpa [Value.allTables] using h2) (by simpa [Value.allTables] using h3)
            (by simpa [Value.allTables] using h4) (by simpa [sameValue] using hv)
            (by simpa [sameValue] using hw)
        | _ => simp [sameValue] at hw
      | _ => cases w2 <;> simp_all [sameValue, deepEqual]
    | _ => simp [sameValue] at hv
  | .table e, v2, w, w2, h1, h2, h3, h4, hv, hw => by
    cases v2 with
    | table e2 =>
      cases w with
      | table c =>
        cases w2 with
        | table c2 =>
          have g1 := allTables_table.1 h1
          have g2 := allTables_table.1 h2
          have g3 := allTables_table.1 h3
          have g4 := allTables_table.1 h4
          have me := entries_of_sameTree g1.1 g2.1 hv
          have mc := entries_of_sameTree g3.1 g4.1 hw
          have hinv : ∀ k v v2 w w2, (k, v) ∈ e → (k, v2) ∈ e2 → (k, w) ∈ c → (k, w2) ∈ c2 →
              sameValue v v2 = true → sameValue w w2 = true →
              deepEqual v w = deepEqual v2 w2 :=
            fun k v v2 w w2 m1 m2 m3 m4 s1 s2 =>
              deepEqualEntries_same e g1.2 k v m1 v2 w w2 (allTablesEntries_mem g2.2 m2)
                (allTablesEntries_mem g3.2 m3) (allTablesEntries_mem g4.2 m4) s1 s2
          rw [Bool.eq_iff_iff]
          constructor
          · exact deepEqual_table_transport (fun a b => sameValue a b = true) g4.1
              (sameTree_length hv) (sameTree_length hw) me.2 mc.1
              (fun k v v2 w w2 m1 m2 m3 m4 s1 s2 h =>
                (hinv k v v2 w w2 m1 m2 m3 m4 s1 s2) ▸ h)
          · exact deepEqual_table_transport (fun a b => sameValue b a = true) g3.1
              (sameTree_length hv).symm (sameTree_length hw).symm me.1 mc.2
              (fun k v2 v w2 w m2 m1 m4 m3 s1 s2 h =>
                (hinv k v v2 w w2 m1 m2 m3 m4 s1 s2).symm ▸ h)
        | _ => simp [sameValue] at hw
      | _ => cases w2 <;> simp_all [sameValue, deepEqual]
    | _ => simp [sameValue] at hv
theorem deepEqualList_same : ∀ xs xs2 ys ys2 : List Value,
    allTablesList distinctKeys xs = true → allTablesList distinctKeys xs2 = true →
    allTablesList distinctKeys ys = true → allTablesList distinctKeys ys2 = true →
    sameList xs xs2 = true → sameList ys ys2 = true →
    deepEqualList xs ys = deepEqualList xs2 ys2
  | [], xs2, ys, ys2, _, _, _, _, hv, hw => by
    cases xs2 with
    | nil => cases ys <;> cases ys2 <;> simp_all [sameList, deepEqualList]
    | cons _ _ => simp [sameList] at hv
  | x :: xs, xs2, ys, ys2, h1, h2, h3, h4, hv, hw => by
    cases xs2 with
    | nil => simp [sameList] at hv
    | cons x2 xs2 =>
      cases ys with
      | nil => cases ys2 <;> simp_all [sameList, deepEqualList]
      | cons y ys =>
        cases ys2 with
        | nil => simp [sameList] at hw
        | cons y2 ys2 =>
          rw [allTablesList, Bool.and_eq_true] at h1 h2 h3 h4
          rw [sameList, Bool.and_eq_true] at hv hw
          rw [deepEqualList, deepEqualList,
            deepEqual_same x x2 y y2 h1.1 h2.1 h3.1 h4.1 hv.1 hw.1,
            deepEqualList_same xs xs2 ys ys2 h1.2 h2.2 h3.2 h4.2 hv.2 hw.2]
theorem deepEqualEntries_same : ∀ kvs : List (String × Value),
    allTablesEntries distinctKeys kvs = true →
    ∀ k v, (k, v) ∈ kvs → ∀ v2 w w2 : Value, v2.allTables distinctKeys = true →
      w.allTables distinctKeys = true → w2.allTables distinctKeys = true →
      sameValue v v2 = true → sameValue w w2 = true → deepEqual v w = deepEqual v2 w2
  | [], _ => by simp
  | (k0, v0) :: rest, hw => by
    rw [allTablesEntries, Bool.and_eq_true] at hw
    intro k v hm v2 w w2 g2 g3 g4 s1 s2
    rcases List.mem_cons.1 hm with hm | hm
    · cases hm
      exact deepEqual_same v0 v2 w w2 hw.1 g2 g3 g4 s1 s2
    · exact deepEqualEntries_same rest hw.2 k v hm v2 w w2 g2 g3 g4 s1 s2
end

theorem sameTree_of_tables {ex ex2 : Table}
    (h : sameValue (.table ex) (.table ex2) = true) : sameTree ex ex2 = true := h

/-- Two orderings of `existing` and two orderings of `new` give the same
result. -/
theorem compareConfigs_same : ∀ (n : Nat) (e c e2 c2 : Table), sizeOf c ≤ n →
    wfTree e = true → wfTree c = true → wfTree e2 = true → wfTree c2 = true →
    sameTree e e2 = true → sameTree c c2 = true →
    compareConfigs e c = compareConfigs e2 c2
  | 0, e, c, e2, c2, hn, _, _, _, _, _, _ => by
    cases c with
    | nil => simp at hn
    | cons en rest => simp at hn
  | n + 1, e, c, e2, c2, hn, hwe, hwc, hwe2, hwc2, hse, hsc => by
    have hde := wfTree_distinct hwe
    have hdc := wfTree_distinct hwc
    have hde2 := wfTree_distinct hwe2
    have hdc2 := wfTree_distinct hwc2
    have entry : ∀ k nv nv2, c.lookup k = some nv → c2.lookup k = some nv2 →
        sameValue nv nv2 = true →
        compareEntry e k nv ⟨[], [], []⟩ = compareEntry e2 k nv2 ⟨[], [], []⟩ := by
      intro k nv nv2 hlc hlc2 hsn
      rcases lookup_of_sameTree hde hde2 hse k with ⟨h1, h2⟩ | ⟨ev, ev2, h1, h2, hsv⟩
      · rw [compareEntry_absent nv _ h1, compareEntry_absent nv2 _ h2]
      · have heq : deepEqual ev nv = deepEqual ev2 nv2 :=
          deepEqual_same ev ev2 nv nv2 (wf_of_lookup hwe h1) (wf_of_lookup hwe2 h2)
            (wf_of_lookup hwc hlc) (wf_of_lookup hwc2 hlc2) hsv hsn
        cases he : deepEqual ev nv with
        | true => rw [compareEntry_equal _ h1 he, compareEntry_equal _ h2 (heq ▸ he)]
        | false =>
          have he2 : deepEqual ev2 nv2 = false := heq ▸ he
          cases ht : ev.isTable with
          | false =>
            have ht2 : ev2.isTable = false := by rw [← sameValue_isTable hsv]; exact ht
            rw [compareEntry_scalar _ h1 he ht, compareEntry_scalar _ h2 he2 ht2]
          | true =>
            have ht2 : ev2.isTable = true := by rw [← sameValue_isTable hsv]; exact ht
            obtain ⟨ex, rfl⟩ : ∃ ex, ev = .table ex := by
              cases ev <;> simp_all [Value.isTable]
            obtain ⟨ex2, rfl⟩ : ∃ ex2, ev2 = .table ex2 := by
              cases ev2 <;> simp_all [Value.isTable]
            cases hn1 : nv.isTable with
            | false =>
              have hn2 : nv2.isTable = false := by rw [← sameValue_isTable hsn]; exact hn1
              rw [compareEntry_panics _ h1 hn1, compareEntry_panics _ h2 hn2]
            | true =>
              have hn2 : nv2.isTable = true := by rw [← sameValue_isTable hsn]; exact hn1
              obtain ⟨nw, rfl⟩ : ∃ nw, nv = .table nw := by
                cases nv <;> simp_all [Value.isTable]
              obtain ⟨nw2, rfl⟩ : ∃ nw2, nv2 = .table nw2 := by
                cases nv2 <;> simp_all [Value.isTable]
              have hmc := mem_of_lookup hlc
              have hlt := sizeOf_sub hmc
              rw [compareEntry_tables _ h1 he, compareEntry_tables _ h2 he2,
                compareConfigs_same n ex nw ex2 nw2 (by omega)
                  (wfTree_sub hwe (mem_of_lookup h1)) (wfTree_sub hwc hmc)
                  (wfTree_sub hwe2 (mem_of_lookup h2)) (wfTree_sub hwc2 (mem_of_lookup hlc2))
                  (sameTree_of_tables hsv) (sameTree_of_tables hsn)]
    have hkey : ∀ k, keyDiff e c k = (keyDiff e2 c2 k).map id := by
      intro k
      rw [Option.map_id, id]
      unfold keyDiff
      rcases lookup_of_sameTree hdc hdc2 hsc k with ⟨h1, h2⟩ | ⟨nv, nv2, h1, h2, hsn⟩
      · rw [h1, h2]
        rcases lookup_of_sameTree hde hde2 hse k with ⟨g1, g2⟩ | ⟨ev, ev2, g1, g2, _⟩
        · rw [g1, g2]
        · rw [g1, g2]
      · rw [h1, h2]
        exact entry k nv nv2 h1 h2 hsn
    have := compareConfigs_transfer id id (fun _ _ => rfl) hde hdc hde2 hdc2
      (keySet_of_sameTree hde hdc hse hsc) hkey
    rw [this, Option.map_id, id]

/-- C11: the result of `compareConfigs` does not depend on the order in which the
keys of `existing` or of `canonical`, at any nesting level, are stored: two
orderings of the same trees give identical `added`, `removed` and `modified`. -/
theorem order_independent (existing canonical existing2 canonical2 : Table)
    (hwe : wfTree existing = true) (hwc : wfTree canonical = true)
    (hwe2 : wfTree existing2 = true) (hwc2 : wfTree canonical2 = true)
    (hse : sameTree existing existing2 = true) (hsc : sameTree canonical canonical2 = true) :
    compareConfigs existing canonical = compareConfigs existing2 canonical2 :=
  compareConfigs_same (sizeOf canonical) existing canonical existing2 canonical2
    (Nat.le_refl _) hwe hwc hwe2 hwc2 hse hsc

theorem order_independent_witness :
    wfTree [("z", .int 1), ("m", .table [("q", .int 1), ("b", .int 1)]), ("c", .int 1)] = true ∧
    wfTree [("y", .int 1), ("m", .table [("r", .int 1), ("b", .int 2), ("a", .int 1)]),
      ("n", .int 0), ("c", .int 2)] = true ∧
    wfTree [("c", .int 1), ("m", .table [("b", .int 1), ("q", .int 1)]), ("z", .int 1)] = true ∧
    wfTree [("c", .int 2), ("n", .int 0), ("y", .int 1),
      ("m", .table [("a", .int 1), ("r", .int 1), ("b", .int 2)])] = true ∧
    sameTree [("z", .int 1), ("m", .table [("q", .int 1), ("b", .int 1)]), ("c", .int 1)]
      [("c", .int 1), ("m", .table [("b", .int 1), ("q", .int 1)]), ("z", .int 1)] = true ∧
    sameTree [("y", .int 1), ("m", .table [("r", .int 1), ("b", .int 2), ("a", .int 1)]),
        ("n", .int 0), ("c", .int 2)]
      [("c", .int 2), ("n", .int 0), ("y", .int 1),
        ("m", .table [("a", .int 1), ("r", .int 1), ("b", .int 2)])] = true ∧
    compareConfigs
      [("c", .int 1), ("m", .table [("b", .int 1), ("q", .int 1)]), ("z", .int 1)]
      [("c", .int 2), ("n", .int 0), ("y", .int 1),
        ("m", .table [("a", .int 1), ("r", .int 1), ("b", .int 2)])]
      = some ⟨["m.a", "m.r", "n", "y"], ["m.q", "z"], ["c", "m.b"]⟩ ∧
    compareConfigs
      [("z", .int 1), ("m", .table [("q", .int 1), ("b", .int 1)]), ("c", .int 1)]
      [("y", .int 1), ("m", .table [("r", .int 1), ("b", .int 2), ("a", .int 1)]),
        ("n", .int 0), ("c", .int 2)]
      = compareConfigs
      [("c", .int 1), ("m", .table [("b", .int 1), ("q", .int 1)]), ("z", .int 1)]
      [("c", .int 2), ("n", .int 0), ("y", .int 1),
        ("m", .table [("a", .int 1), ("r", .int 1), ("b", .int 2)])] :=
  ⟨by decide, by decide, by decide, by decide, by decide, by decide, by decide,
    order_independent _ _ _ _ (by decide) (by decide) (by decide) (by decide) (by decide)
      (by decide)⟩

mutual
theorem sameValue_refl : ∀ v : Value, v.allTables distinctKeys = true → sameValue v v = true
  | .str s, _ => by simp [sameValue]
  | .int i, _ => by simp [sameValue]
  | .float bits, _ => by simp [sameValue]
  | .bool b, _ => by simp [sameValue]
  | .time r, _ => by simp [sameValue]
  | .list xs, hw => by
    rw [sameValue]
    exact sameList_refl xs (by simpa [Value.allTables] using hw)
  | .table kvs, hw => by
    have hw2 := allTables_table.1 hw
    refine sameTree_iff.2 ⟨rfl, ?_⟩
    intro k v hm
    exact ⟨v, lookup_of_mem hw2.1 hm, sameEntries_refl kvs hw2.2 k v hm⟩
theorem sameList_refl : ∀ xs : List Value, allTablesList distinctKeys xs = true →
    sameList xs xs = true
  | [], _ => by rw [sameList]
  | x :: xs, hw => by
    rw [allTablesList, Bool.and_eq_true] at hw
    rw [sameList, Bool.and_eq_true]
    exact ⟨sameValue_refl x hw.1, sameList_refl xs hw.2⟩
theorem sameEntries_refl : ∀ kvs : List (String × Value),
    allTablesEntries distinctKeys kvs = true →
    ∀ k v, (k, v) ∈ kvs → sameValue v v = true
  | [], _ => by simp
  | (k2, v2) :: rest, hw => by
    rw [allTablesEntries, Bool.and_eq_true] at hw
    intro k v hm
    rcases List.mem_cons.1 hm with hm | hm
    · cases hm
      exact sameValue_refl v2 hw.1
    · exact sameEntries_refl rest hw.2 k v hm
end

/-- A tree whose entries are stored in a permuted order is the same tree. -/
theorem sameTree_of_perm {e e2 : Table} (hw : wfTree e = true) (hp : e.Perm e2) :
    sameTree e e2 = true := by
  have hw2 := allTables_table.1 hw
  have hd2 : distinctKeys e2 = true := by
    have := (hp.map Prod.fst).nodup_iff.1 (nodup_of_distinctKeys hw2.1)
    simpa [distinctKeys] using this
  refine sameTree_iff.2 ⟨hp.length_eq, ?_⟩
  intro k v hm
  exact ⟨v, lookup_of_mem hd2 (hp.mem_iff.1 hm),
    sameValue_refl v (allTablesEntries_mem hw2.2 hm)⟩

/-! ## An empty diff means deeply equal trees -/

theorem keyDiff_of_not_key {a b : Table} {k : String} (hk : k ∉ keySet a b) :
    keyDiff a b k = some ⟨[], [], []⟩ := by
  unfold keySet at hk
  simp only [Finset.mem_union, List.mem_toFinset, not_or] at hk
  unfold keyDiff
  rw [lookup_none_iff.2 hk.2, lookup_none_iff.2 hk.1]

theorem keyDiff_isSome {a b : Table} {d : Diff} (hb : distinctKeys b = true)
    (h : compareConfigs a b = some d) (k : String) : ∃ dk, keyDiff a b k = some dk := by
  cases hk : keyDiff a b k with
  | some dk => exact ⟨dk, rfl⟩
  | none =>
    have := (compareConfigs_none_iff hb).2 ⟨k, hk⟩
    rw [h] at this
    cases this

/-- What one key reports is part of the result. -/
theorem keyDiff_count_le {a b : Table} {d dk : Diff} {k : String}
    (ha : distinctKeys a = true) (hb : distinctKeys b = true)
    (h : compareConfigs a b = some d) (hk : keyDiff a b k = some dk) (s : Part) (p : String) :
    (dk.part s).count p ≤ (d.part s).count p := by
  by_cases hmem : k ∈ keySet a b
  · rw [compareConfigs_count ha hb h s p]
    have := Finset.single_le_sum
      (f := fun k => (((keyDiff a b k).getD ⟨[], [], []⟩).part s).count p)
      (fun _ _ => Nat.zero_le _) hmem
    simpa [hk] using this
  · rw [keyDiff_of_not_key hmem] at hk
    cases hk
    cases s <;> simp [Diff.part]

theorem keyDiff_of_empty {a b : Table} (ha : distinctKeys a = true)
    (hb : distinctKeys b = true) (h : compareConfigs a b = some ⟨[], [], []⟩) (k : String) :
    keyDiff a b k = some ⟨[], [], []⟩ := by
  obtain ⟨dk, hdk⟩ := keyDiff_isSome hb h k
  rw [hdk]
  congr 1
  apply diff_ext_part
  intro s
  have hnil : (Diff.part ⟨[], [], []⟩ s) = [] := by cases s <;> rfl
  rw [hnil, List.eq_nil_iff_forall_not_mem]
  intro p hp
  have := keyDiff_count_le ha hb h hdk s p
  rw [hnil, List.count_nil] at this
  exact absurd (List.count_pos_iff.2 hp) (by omega)

theorem qualify_eq_nil {key : String} {l : List String} (h : qualify key l = []) : l = [] := by
  unfold qualify at h
  simpa using h

/-- When `compareConfigs` returns three empty sequences, `reflect.DeepEqual`
accepts the two trees. -/
theorem deepEqual_of_empty : ∀ (n : Nat) (e c : Table), sizeOf c ≤ n →
    wfTree e = true → wfTree c = true → compareConfigs e c = some ⟨[], [], []⟩ →
    deepEqual (.table e) (.table c) = true
  | 0, e, c, hn, _, _, _ => by
    cases c with
    | nil => simp at hn
    | cons en rest => simp at hn
  | n + 1, e, c, hn, hwe, hwc, h => by
    have hde := wfTree_distinct hwe
    have hdc := wfTree_distinct hwc
    have hkey := keyDiff_of_empty hde hdc h
    -- every entry of `c` is bound in `e` to a deeply equal value
    have hnew : ∀ k nv, (k, nv) ∈ c →
        ∃ ev, e.lookup k = some ev ∧ deepEqual ev nv = true := by
      intro k nv hm
      have hk := hkey k
      unfold keyDiff at hk
      rw [lookup_of_mem hdc hm] at hk
      simp only at hk
      rcases compareEntry_cases hk with ⟨_, h0⟩ | ⟨ev, hl, he, _⟩ | ⟨ev, _, _, _, h0⟩ |
        ⟨ex, nw, sub, hl, rfl, he, hs, h0⟩
      · simp at h0
      · exact ⟨ev, hl, he⟩
      · simp at h0
      · have h1 : sub = ⟨[], [], []⟩ := by
          simp only [Diff.merge, List.nil_append, Diff.mk.injEq] at h0
          cases sub
          simp only [Diff.mk.injEq]
          exact ⟨qualify_eq_nil h0.1.symm, qualify_eq_nil h0.2.1.symm,
            qualify_eq_nil h0.2.2.symm⟩
        subst h1
        have hlt := sizeOf_sub hm
        have := deepEqual_of_empty n ex nw (by omega) (wfTree_sub hwe (mem_of_lookup hl))
          (wfTree_sub hwc hm) hs
        rw [this] at he
        cases he
    -- every key of `e` is a key of `c`
    have hold : ∀ k, k ∈ e.map Prod.fst → k ∈ c.map Prod.fst := by
      intro k hk
      by_contra hkc
      have h0 := hkey k
      obtain ⟨v, hv⟩ := lookup_isSome_of_key hk
      unfold keyDiff at h0
      rw [lookup_none_iff.2 hkc, hv] at h0
      simp at h0
    have hperm : (e.map Prod.fst).Perm (c.map Prod.fst) := by
      rw [List.perm_ext_iff_of_nodup (nodup_of_distinctKeys hde) (nodup_of_distinctKeys hdc)]
      intro k
      constructor
      · exact hold k
      · intro hk
        obtain ⟨nv, hnv⟩ := key_of_mem_keys hk
        obtain ⟨ev, hl, _⟩ := hnew k nv hnv
        exact List.mem_map_of_mem Prod.fst (mem_of_lookup hl)
    refine deepEqual_table_iff.2 ⟨by simpa using hperm.length_eq, ?_⟩
    intro k v hm
    obtain ⟨nv, hnv⟩ := key_of_mem_keys (hold k (List.mem_map_of_mem Prod.fst hm))
    obtain ⟨ev, hl, he⟩ := hnew k nv hnv
    have : ev = v := by
      have := lookup_of_mem hde hm
      rw [hl] at this
      exact Option.some.inj this
    subst this
    exact ⟨nv, lookup_of_mem hdc hnv, he⟩

/-- C18: when `compareConfigs` completes with three empty sequences, `existing`
and `canonical` are equal by `reflect.DeepEqual`. -/
theorem empty_diff_deepEqual (existing canonical : Table) (hwe : wfTree existing = true)
    (hwc : wfTree canonical = true)
    (h : compareConfigs existing canonical = some ⟨[], [], []⟩) :
    deepEqual (.table existing) (.table canonical) = true :=
  deepEqual_of_empty (sizeOf canonical) existing canonical (Nat.le_refl _) hwe hwc h

theorem empty_diff_deepEqual_witness :
    wfTree [("parent", .table [("child1", .str "value1"), ("rate", .float 0)]),
      ("param2", .int 42)] = true ∧
    wfTree [("param2", .int 42),
      ("parent", .table [("rate", .float 0x8000000000000000), ("child1", .str "value1")])]
      = true ∧
    compareConfigs
      [("parent", .table [("child1", .str "value1"), ("rate", .float 0)]), ("param2", .int 42)]
      [("param2", .int 42),
        ("parent", .table [("rate", .float 0x8000000000000000), ("child1", .str "value1")])]
      = some ⟨[], [], []⟩ ∧
    deepEqual
      (.table [("parent", .table [("child1", .str "value1"), ("rate", .float 0)]),
        ("param2", .int 42)])
      (.table [("param2", .int 42),
        ("parent", .table [("rate", .float 0x8000000000000000), ("child1", .str "value1")])])
      = true :=
  ⟨by decide, by decide, by decide,
    empty_diff_deepEqual _ _ (by decide) (by decide) (by decide)⟩

/-! ## No path is reported twice -/

theorem keyDiff_shape {a b : Table} {k : String} {dk : Diff} (h : keyDiff a b k = some dk)
    (s : Part) :
    dk.part s = [] ∨ dk.part s = [k] ∨
      ∃ ex nw sub, a.lookup k = some (.table ex) ∧ b.lookup k = some (.table nw) ∧
        compareConfigs ex nw = some sub ∧ dk.part s = qualify k (sub.part s) := by
  unfold keyDiff at h
  cases hb : b.lookup k with
  | some nv =>
    rw [hb] at h
    simp only at h
    rcases compareEntry_cases h with ⟨_, rfl⟩ | ⟨ev, _, _, rfl⟩ | ⟨ev, _, _, _, rfl⟩ |
      ⟨ex, nw, sub, hl, rfl, _, hs, rfl⟩
    · cases s <;> simp [Diff.part]
    · cases s <;> simp [Diff.part]
    · cases s <;> simp [Diff.part]
    · refine Or.inr (Or.inr ⟨ex, nw, sub, hl, rfl, hs, ?_⟩)
      cases s <;> simp [Diff.part, Diff.merge]
  | none =>
    rw [hb] at h
    simp only at h
    cases ha : a.lookup k with
    | some v =>
      rw [ha] at h
      cases h
      cases s <;> simp [Diff.part]
    | none =>
      rw [ha] at h
      cases h
      cases s <;> simp [Diff.part]

theorem qualified_injective (key : String) :
    Function.Injective (fun subKey : String => key ++ "." ++ subKey) := by
  intro x y h
  have h2 := congrArg String.data h
  simp only [String.data_append, List.append_cancel_left_eq] at h2
  exact String.ext h2

theorem pathHead_key {key : String} (h : '.' ∉ key.data) : pathHead key = some key := by
  unfold pathHead
  rw [splitPath_key h]
  rfl

theorem pathHead_qualified {key : String} (q : String) (h : '.' ∉ key.data) :
    pathHead (key ++ "." ++ q) = some key := by
  unfold pathHead
  rw [splitPath_qualified q h]
  rfl

theorem dotFree_of_keySet {a b : Table} {k : String} (hda : dotFree a = true)
    (hdb : dotFree b = true) (hk : k ∈ keySet a b) : '.' ∉ k.data := by
  unfold keySet at hk
  simp only [Finset.mem_union, List.mem_toFinset] at hk
  rcases hk with hk | hk
  · obtain ⟨v, hv⟩ := key_of_mem_keys hk
    exact dotFree_key hda hv
  · obtain ⟨v, hv⟩ := key_of_mem_keys hk
    exact dotFree_key hdb hv

/-- For trees without dots in their keys, no result sequence holds a path
twice. -/
theorem parts_nodup : ∀ (n : Nat) (e c : Table) (d : Diff), sizeOf c ≤ n →
    wfTree e = true → wfTree c = true → dotFree e = true → dotFree c = true →
    compareConfigs e c = some d → ∀ s, (d.part s).Nodup
  | 0, e, c, d, hn, _, _, _, _, _ => by
    cases c with
    | nil => simp at hn
    | cons en rest => simp at hn
  | n + 1, e, c, d, hn, hwe, hwc, hfe, hfc, h => by
    intro s
    have hde := wfTree_distinct hwe
    have hdc := wfTree_distinct hwc
    have one : ∀ k dk, keyDiff e c k = some dk → (dk.part s).Nodup := by
      intro k dk hk
      rcases keyDiff_shape hk s with h0 | h0 | ⟨ex, nw, sub, hla, hlb, hs, h0⟩
      · rw [h0]; exact List.nodup_nil
      · rw [h0]; exact List.nodup_singleton k
      · rw [h0]
        have hmb := mem_of_lookup hlb
        have hma := mem_of_lookup hla
        have hlt := sizeOf_sub hmb
        exact (parts_nodup n ex nw sub (by omega) (wfTree_sub hwe hma) (wfTree_sub hwc hmb)
          (dotFree_sub hfe hma) (dotFree_sub hfc hmb) hs s).map (qualified_injective k)
    have head : ∀ k dk p, k ∈ keySet e c → keyDiff e c k = some dk → p ∈ dk.part s →
        pathHead p = some k := by
      intro k dk p hmem hk hp
      have hdot := dotFree_of_keySet hfe hfc hmem
      rcases keyDiff_shape hk s with h0 | h0 | ⟨ex, nw, sub, _, _, _, h0⟩
      · rw [h0] at hp; simp at hp
      · rw [h0, List.mem_singleton] at hp
        rw [hp]
        exact pathHead_key hdot
      · rw [h0] at hp
        obtain ⟨q, _, rfl⟩ := mem_qualify.1 hp
        exact pathHead_qualified q hdot
    rw [List.nodup_iff_count_le_one]
    intro p
    rw [compareConfigs_count hde hdc h s p]
    by_cases hex : ∃ k ∈ keySet e c,
        0 < (((keyDiff e c k).getD ⟨[], [], []⟩).part s).count p
    · obtain ⟨k0, hk0, hpos⟩ := hex
      obtain ⟨dk0, hdk0⟩ := keyDiff_isSome hdc h k0
      rw [Finset.sum_eq_single_of_mem k0 hk0]
      · rw [hdk0, Option.getD_some]
        exact List.nodup_iff_count_le_one.1 (one k0 dk0 hdk0) p
      · intro k hk hne
        obtain ⟨dk, hdk⟩ := keyDiff_isSome hdc h k
        rw [hdk, Option.getD_some]
        by_contra hc
        have hp : p ∈ dk.part s := List.count_pos_iff.1 (Nat.pos_of_ne_zero hc)
        rw [hdk0, Option.getD_some] at hpos
        have hp0 : p ∈ dk0.part s := List.count_pos_iff.1 hpos
        have e1 := head k dk p hk hdk hp
        have e2 := head k0 dk0 p hk0 hdk0 hp0
        rw [e1] at e2
        exact hne (Option.some.inj e2)
    · have : ∀ k ∈ keySet e c,
          (((keyDiff e c k).getD ⟨[], [], []⟩).part s).count p = 0 := by
        intro k hk
        by_contra hc
        exact hex ⟨k, hk, Nat.pos_of_ne_zero hc⟩
      rw [Finset.sum_eq_zero this]
      exact Nat.zero_le _

/-- For trees without dots in their keys, no path is in two of the three
result sequences. -/
theorem parts_disjoint {existing canonical : Table} {d : Diff}
    (hw : wfTree canonical = true) (hde : dotFree existing = true)
    (hdc : dotFree canonical = true) (h : compareConfigs existing canonical = some d) :
    d.added.Disjoint d.removed ∧ d.added.Disjoint d.modified ∧
      d.removed.Disjoint d.modified := by
  have hs := diff_sound (sizeOf canonical) existing canonical d (Nat.le_refl _) hw hde hdc h
  refine ⟨?_, ?_, ?_⟩
  · intro p ha hr
    have h1 := (hs.1 p ha).2
    have h2 := (hs.2.1 p hr).1
    rw [h1] at h2
    cases h2
  · intro p ha hm
    have h1 := (hs.1 p ha).2
    obtain ⟨v1, v2, h2, _⟩ := hs.2.2 p hm
    rw [h1] at h2
    cases h2
  · intro p hr hm
    have h1 := (hs.2.1 p hr).2
    obtain ⟨v1, v2, _, h2, _⟩ := hs.2.2 p hm
    rw [h1] at h2
    cases h2

/-- C19: for trees none of whose keys contains a dot and on which
`compareConfigs` completes, the concatenation of `added`, `removed` and
`modified` has no duplicate. -/
theorem no_duplicate_paths (existing canonical : Table) (d : Diff)
    (hwe : wfTree existing = true) (hwc : wfTree canonical = true)
    (hde : dotFree existing = true) (hdc : dotFree canonical = true)
    (h : compareConfigs existing canonical = some d) :
    (d.added ++ d.removed ++ d.modified).Nodup := by
  have hn := parts_nodup (sizeOf canonical) existing canonical d (Nat.le_refl _) hwe hwc hde
    hdc h
  obtain ⟨h1, h2, h3⟩ := parts_disjoint hwc hde hdc h
  rw [List.nodup_append, List.nodup_append]
  refine ⟨⟨hn .added, hn .removed, h1⟩, hn .modified, ?_⟩
  intro p hp
  rcases List.mem_append.1 hp with hp | hp
  · exact h2 hp
  · exact h3 hp

theorem no_duplicate_paths_witness :
    wfTree [("a", .table [("x", .int 1), ("y", .int 2)]), ("gone", .int 1), ("n", .int 2)]
      = true ∧
    wfTree [("n", .int 3), ("a", .table [("y", .int 3), ("z", .int 1)]), ("fresh", .int 0)]
      = true ∧
    dotFree [("a", .table [("x", .int 1), ("y", .int 2)]), ("gone", .int 1), ("n", .int 2)]
      = true ∧
    dotFree [("n", .int 3), ("a", .table [("y", .int 3), ("z", .int 1)]), ("fresh", .int 0)]
      = true ∧
    compareConfigs
      [("a", .table [("x", .int 1), ("y", .int 2)]), ("gone", .int 1), ("n", .int 2)]
      [("n", .int 3), ("a", .table [("y", .int 3), ("z", .int 1)]), ("fresh", .int 0)]
      = some ⟨["a.z", "fresh"], ["a.x", "gone"], ["a.y", "n"]⟩ ∧
    (["a.z", "fresh"] ++ ["a.x", "gone"] ++ ["a.y", "n"]).Nodup :=
  ⟨by decide, by decide, by decide, by decide, by decide,
    no_duplicate_paths
      [("a", .table [("x", .int 1), ("y", .int 2)]), ("gone", .int 1), ("n", .int 2)]
      [("n", .int 3), ("a", .table [("y", .int 3), ("z", .int 1)]), ("fresh", .int 0)]
      ⟨["a.z", "fresh"], ["a.x", "gone"], ["a.y", "n"]⟩
      (by decide) (by decide) (by decide) (by decide) (by decide)⟩

/-! ## Keys that only `existing` has -/

end Server

namespace Node

/-- C17 (the code at the failing input): with the comet client of the test,
which reports its earliest block height 50 (or 1) through `Status`, the method
calls `Block` and panics; without a client it returns `EarliestStoreHeight = 0`
and `Height = 100`; for a node whose `Block` error names the lowest height 50 it
returns 50. -/
theorem status_with_mock_client :
    Status (serverWith (mockCometRPC 50)) testContext = none ∧
    Status (serverWith (mockCometRPC 1)) testContext = none ∧
    (Status serverOffline testContext).map (fun r => (r.EarliestStoreHeight, r.Height))
      = some (0, 100) ∧
    (Status (serverWith prunedNode) testContext).map
      (fun r => (r.EarliestStoreHeight, r.Height)) = some (50, 100) := by
  decide

end Node
